import Mathlib

set_option autoImplicit false

/-!
Verification of the Dendridraw mindmap core.

This file gives a shallow embedding of the semantic model of the
Dendridraw repository: the tree store (`src/store/mindmapStore.ts`),
the layout engine (`src/engine/layout.ts`), the canvas selection
resolution (`src/components/canvasSync.ts`) and the keyboard shortcut
policy (`src/hooks/shortcutPolicy.ts`), together with theorems about
their behaviour.

JavaScript `Record<string, T>` objects are embedded as association
lists with JS assignment/deletion semantics (`setKey` replaces the
value of an existing key in place, `eraseKey` removes the key); the
non-deterministic inputs `nanoid()` and `Date.now()` are passed in as
explicit parameters.
-/

namespace Dendridraw

/-- `NodeType` from `src/types/mindmap.ts`: 'topic' | 'task' | 'reference'. -/
inductive NodeType
  | topic
  | task
  | reference
deriving DecidableEq, Repr

/-- An `{ x, y }` coordinate pair (`NodePosition` in `src/engine/layout.ts`).
JS numbers are embedded as rationals, since the layout engine divides by 2. -/
structure NodePosition where
  x : Rat
  y : Rat
deriving DecidableEq, Repr

/-- The `metadata` field of a `MindmapNode`. -/
structure NodeMetadata where
  notes : Option String
  links : Option (List String)
  createdAt : Int
  updatedAt : Int
deriving DecidableEq, Repr

/-- `MindmapNode` from `src/types/mindmap.ts`, in its most evolved revision
(with the optional manual `position` override used by `setNodePosition`). -/
structure MindmapNode where
  id : String
  label : String
  parentId : Option String
  childrenIds : List String
  type : NodeType
  collapsed : Bool
  position : Option NodePosition
  metadata : NodeMetadata
deriving DecidableEq, Repr

/-- `Record<string, β>` embedded as an association list in key insertion order. -/
abbrev EntryMap (β : Type) := List (String × β)

/-- `m[k]` read access: value of the first entry with key `k`. -/
def lookupA {β : Type} : EntryMap β → String → Option β
  | [], _ => none
  | e :: rest, k => if e.1 = k then some e.2 else lookupA rest k

/-- `m[k] = v` assignment: replace the entry in place, or append a new key. -/
def setKey {β : Type} : EntryMap β → String → β → EntryMap β
  | [], k, v => [(k, v)]
  | e :: rest, k, v => if e.1 = k then (k, v) :: rest else e :: setKey rest k v

/-- `delete m[k]`: remove every entry with key `k`. -/
def eraseKey {β : Type} : EntryMap β → String → EntryMap β
  | [], _ => []
  | e :: rest, k => if e.1 = k then eraseKey rest k else e :: eraseKey rest k

/-- `Object.keys(m)` in entry order. -/
def keysOf {β : Type} (m : EntryMap β) : List String := m.map Prod.fst

/-- A JS `Record` never repeats a key; association lists satisfying this
predicate are exactly the faithful images of records. -/
def NodupKeys {β : Type} (m : EntryMap β) : Prop := (keysOf m).Nodup

section EntryMapLemmas

variable {β : Type}

@[simp] theorem keysOf_nil : keysOf ([] : EntryMap β) = [] := rfl

@[simp] theorem keysOf_cons (e : String × β) (rest : EntryMap β) :
    keysOf (e :: rest) = e.1 :: keysOf rest := rfl

theorem nodupKeys_cons_iff (e : String × β) (rest : EntryMap β) :
    NodupKeys (e :: rest) ↔ e.1 ∉ keysOf rest ∧ NodupKeys rest := by
  unfold NodupKeys
  simp

theorem lookupA_setKey_self (m : EntryMap β) (k : String) (v : β) :
    lookupA (setKey m k v) k = some v := by
  induction m with
  | nil => simp [setKey, lookupA]
  | cons e rest ih =>
    by_cases h : e.1 = k
    · simp [setKey, h, lookupA]
    · simp [setKey, h, lookupA, ih]

theorem lookupA_setKey_ne (m : EntryMap β) (k k' : String) (v : β) (h : k' ≠ k) :
    lookupA (setKey m k v) k' = lookupA m k' := by
  have hk : ¬k = k' := fun hh => h hh.symm
  induction m with
  | nil => simp [setKey, lookupA, hk]
  | cons e rest ih =>
    by_cases he : e.1 = k
    · subst he
      simp [setKey, lookupA, hk]
    · by_cases he' : e.1 = k'
      · simp [setKey, he, lookupA, he', h, hk]
      · simp [setKey, he, lookupA, he', ih]

theorem lookupA_eraseKey_self (m : EntryMap β) (k : String) :
    lookupA (eraseKey m k) k = none := by
  induction m with
  | nil => simp [eraseKey, lookupA]
  | cons e rest ih =>
    by_cases h : e.1 = k
    · simp [eraseKey, h, ih]
    · simp [eraseKey, h, lookupA, ih]

theorem lookupA_eraseKey_ne (m : EntryMap β) (k k' : String) (h : k' ≠ k) :
    lookupA (eraseKey m k) k' = lookupA m k' := by
  have hk : ¬k = k' := fun hh => h hh.symm
  induction m with
  | nil => simp [eraseKey]
  | cons e rest ih =>
    by_cases he : e.1 = k
    · subst he
      simp [eraseKey, lookupA, hk, ih]
    · by_cases he' : e.1 = k'
      · simp [eraseKey, he, lookupA, he', h, hk]
      · simp [eraseKey, he, lookupA, he', ih]

theorem lookupA_isSome_iff_mem_keys (m : EntryMap β) (k : String) :
    (lookupA m k).isSome ↔ k ∈ keysOf m := by
  induction m with
  | nil => simp [lookupA]
  | cons e rest ih =>
    by_cases h : e.1 = k
    · simp [lookupA, h]
    · have hk : ¬k = e.1 := fun hh => h hh.symm
      simp [lookupA, h, hk, ih]

theorem lookupA_eq_some_of_mem_nodup (m : EntryMap β) (k : String) (v : β)
    (hnd : NodupKeys m) (hm : (k, v) ∈ m) : lookupA m k = some v := by
  induction m with
  | nil => simp at hm
  | cons e rest ih =>
    have hnd2 := (nodupKeys_cons_iff e rest).mp hnd
    rcases List.mem_cons.mp hm with h1 | h2
    · rw [← h1]
      simp [lookupA]
    · have hke : ¬e.1 = k := by
        intro he
        apply hnd2.1
        rw [he]
        exact List.mem_map_of_mem Prod.fst h2
      simp only [lookupA, if_neg hke]
      exact ih hnd2.2 h2

theorem mem_of_lookupA_eq_some (m : EntryMap β) (k : String) (v : β)
    (h : lookupA m k = some v) : (k, v) ∈ m := by
  induction m with
  | nil => simp [lookupA] at h
  | cons e rest ih =>
    by_cases he : e.1 = k
    · simp [lookupA, he] at h
      have : e = (k, v) := by
        calc e = (e.1, e.2) := rfl
          _ = (k, v) := by rw [he, h]
      exact List.mem_cons.mpr (Or.inl this.symm)
    · simp [lookupA, he] at h
      exact List.mem_cons.mpr (Or.inr (ih h))

theorem keysOf_setKey (m : EntryMap β) (k : String) (v : β) :
    keysOf (setKey m k v) = if k ∈ keysOf m then keysOf m else keysOf m ++ [k] := by
  induction m with
  | nil => simp [setKey]
  | cons e rest ih =>
    by_cases h : e.1 = k
    · simp [setKey, h]
    · have hk : ¬k = e.1 := fun hh => h hh.symm
      by_cases hmem : k ∈ keysOf rest
      · simp [setKey, h, hmem, hk, ih]
      · simp [setKey, h, hmem, hk, ih]

theorem nodupKeys_setKey (m : EntryMap β) (k : String) (v : β)
    (hnd : NodupKeys m) : NodupKeys (setKey m k v) := by
  unfold NodupKeys at hnd ⊢
  rw [keysOf_setKey]
  by_cases h : k ∈ keysOf m
  · simpa [h] using hnd
  · simp only [h, if_false]
    exact List.Nodup.append hnd (List.nodup_singleton k) (by
      intro a ha hb
      simp at hb
      subst hb
      exact h ha)

theorem keysOf_eraseKey (m : EntryMap β) (k : String) :
    keysOf (eraseKey m k) = (keysOf m).filter (fun x => decide (x ≠ k)) := by
  induction m with
  | nil => simp [eraseKey]
  | cons e rest ih =>
    by_cases h : e.1 = k
    · simp [eraseKey, h, ih]
    · simp [eraseKey, h, ih]

theorem nodupKeys_eraseKey (m : EntryMap β) (k : String)
    (hnd : NodupKeys m) : NodupKeys (eraseKey m k) := by
  unfold NodupKeys at hnd ⊢
  rw [keysOf_eraseKey]
  exact List.Nodup.filter _ hnd

end EntryMapLemmas

/-- The node table of the store. -/
abbrev NodeMap := EntryMap MindmapNode

/-- The `parentChildrenIndex` built at the top of `collectSubtree`
(`src/store/mindmapStore.ts`): for a parent id `p`, the ids of all entries
whose `parentId` equals `p`, in entry order. -/
def childIndex (nodes : NodeMap) (p : String) : List String :=
  keysOf (nodes.filter (fun e => decide (e.2.parentId = some p)))

/-- The worklist loop of `collectSubtree`: `stack` is the pending stack
(head = top, matching the JS array whose end is both push and pop site) and
`visited` records, newest first, exactly the ids appended to `result` by the
source (the source's `result` array is `visited` in reverse order).

The JS loop has no fuel; its termination rests on the visited set.
We embed it with an explicit fuel and return `none` on exhaustion;
`collectGo_isSome` below proves that the fuel used by `collectSubtree`
always suffices, which is the termination argument of the source loop. -/
def collectGo (nodes : NodeMap) : Nat → List String → List String → Option (List String)
  | _, [], visited => some visited
  | 0, _ :: _, _ => none
  | fuel + 1, c :: rest, visited =>
    if c ∈ visited then collectGo nodes fuel rest visited
    else
      match lookupA nodes c with
      | none => collectGo nodes fuel rest visited
      | some node =>
        let pushed :=
          node.childrenIds.filter (fun b => decide (b ∉ c :: visited)) ++
            (childIndex nodes c).filter (fun b => decide (b ∉ c :: visited))
        collectGo nodes fuel (pushed.reverse ++ rest) (c :: visited)

/-- Upper bound on the number of ids one visit can push. -/
def collectBound (nodes : NodeMap) : Nat :=
  (nodes.map (fun e => e.2.childrenIds.length)).sum + nodes.length

/-- Number of keys of `nodes` not yet visited. -/
def unvisitedCount (nodes : NodeMap) (visited : List String) : Nat :=
  ((keysOf nodes).dedup.filter (fun k => decide (k ∉ visited))).length

/-- Termination measure of the worklist loop. -/
def collectMeasure (nodes : NodeMap) (stack visited : List String) : Nat :=
  unvisitedCount nodes visited * (collectBound nodes + 1) + stack.length

/-- Fuel that `collectSubtree` hands to the loop. -/
def collectFuel (nodes : NodeMap) : Nat :=
  (nodes.length + 1) * (collectBound nodes + 1) + 1

theorem unvisitedCount_le (nodes : NodeMap) (visited : List String) :
    unvisitedCount nodes visited ≤ nodes.length := by
  unfold unvisitedCount
  calc ((keysOf nodes).dedup.filter (fun k => decide (k ∉ visited))).length
      ≤ (keysOf nodes).dedup.length := List.length_filter_le _ _
    _ ≤ (keysOf nodes).length := (List.dedup_sublist _).length_le
    _ = nodes.length := List.length_map _ _

theorem length_filter_ne_of_nodup (c : String) (l : List String)
    (hc : c ∈ l) (hnd : l.Nodup) :
    (l.filter (fun k => decide (k ≠ c))).length + 1 = l.length := by
  induction l with
  | nil => simp at hc
  | cons a t ih =>
    rcases List.mem_cons.mp hc with h1 | h2
    · subst h1
      have hct : c ∉ t := (List.nodup_cons.mp hnd).1
      have hft : t.filter (fun k => decide (k ≠ c)) = t := by
        apply List.filter_eq_self.mpr
        intro x hx
        have hxc : x ≠ c := fun h => hct (h ▸ hx)
        simp [hxc]
      have hcond : decide (c ≠ c) = false := by simp
      rw [List.filter_cons, hcond]
      simp [hft]
      intro x hx hxc
      exact hct (hxc ▸ hx)
    · have hac : a ≠ c := by
        intro h
        exact (List.nodup_cons.mp hnd).1 (h ▸ h2)
      have ihv := ih h2 (List.nodup_cons.mp hnd).2
      have hcond : decide (a ≠ c) = true := by simp [hac]
      rw [List.filter_cons, hcond]
      simp only [if_true, List.length_cons]
      omega

theorem unvisitedCount_visit (nodes : NodeMap) (visited : List String) (c : String)
    (hc : c ∈ keysOf nodes) (hnv : c ∉ visited) :
    unvisitedCount nodes (c :: visited) + 1 = unvisitedCount nodes visited := by
  unfold unvisitedCount
  have hsplit : ∀ l : List String,
      l.filter (fun k => decide (k ∉ c :: visited)) =
        (l.filter (fun k => decide (k ∉ visited))).filter (fun k => decide (k ≠ c)) := by
    intro l
    induction l with
    | nil => rfl
    | cons a t ih =>
      by_cases hav : a ∈ visited
      · simp [List.filter, hav, ih]
      · by_cases hac : a = c
        · subst hac
          simp [List.filter, hav, ih]
        · simp [List.filter, hav, hac, ih]
  rw [hsplit]
  have hcl2 : c ∈ (keysOf nodes).dedup.filter (fun k => decide (k ∉ visited)) :=
    List.mem_filter.mpr ⟨List.mem_dedup.mpr hc, by simpa using hnv⟩
  have hnd2 : ((keysOf nodes).dedup.filter (fun k => decide (k ∉ visited))).Nodup :=
    List.Nodup.filter _ (List.nodup_dedup _)
  exact length_filter_ne_of_nodup c _ hcl2 hnd2

theorem childIndex_length_le (nodes : NodeMap) (p : String) :
    (childIndex nodes p).length ≤ nodes.length := by
  unfold childIndex keysOf
  calc ((nodes.filter (fun e => decide (e.2.parentId = some p))).map Prod.fst).length
      = (nodes.filter (fun e => decide (e.2.parentId = some p))).length :=
        List.length_map _ _
    _ ≤ nodes.length := List.length_filter_le _ _

theorem childrenIds_length_le (nodes : NodeMap) (c : String) (node : MindmapNode)
    (h : lookupA nodes c = some node) :
    node.childrenIds.length ≤ (nodes.map (fun e => e.2.childrenIds.length)).sum := by
  have hmem : (c, node) ∈ nodes := mem_of_lookupA_eq_some _ _ _ h
  have : node.childrenIds.length ∈ nodes.map (fun e => e.2.childrenIds.length) := by
    exact List.mem_map_of_mem _ hmem
  exact List.single_le_sum (by intro x _; omega) _ this

/-- The loop terminates whenever its fuel dominates the measure: each
iteration either shortens the stack or visits a fresh key of `nodes`, of
which there are finitely many. -/
theorem collectGo_isSome (nodes : NodeMap) (fuel : Nat) :
    ∀ stack visited, collectMeasure nodes stack visited ≤ fuel →
      (collectGo nodes fuel stack visited).isSome := by
  induction fuel with
  | zero =>
    intro stack visited hm
    cases stack with
    | nil => simp [collectGo]
    | cons c rest =>
      exfalso
      unfold collectMeasure at hm
      simp only [List.length_cons] at hm
      omega
  | succ fuel ih =>
    intro stack visited hm
    cases stack with
    | nil => simp [collectGo]
    | cons c rest =>
      by_cases hv : c ∈ visited
      · rw [collectGo, if_pos hv]
        apply ih
        unfold collectMeasure at hm ⊢
        simp at hm ⊢
        omega
      · rw [collectGo, if_neg hv]
        cases hl : lookupA nodes c with
        | none =>
          apply ih
          unfold collectMeasure at hm ⊢
          simp at hm ⊢
          omega
        | some node =>
          apply ih
          have hc : c ∈ keysOf nodes :=
            (lookupA_isSome_iff_mem_keys nodes c).mp (by simp [hl])
          have hcount := unvisitedCount_visit nodes visited c hc hv
          unfold collectMeasure at hm ⊢
          have hpush :
              ((node.childrenIds.filter (fun b => decide (b ∉ c :: visited)) ++
                  (childIndex nodes c).filter (fun b => decide (b ∉ c :: visited))).reverse
                ++ rest).length ≤ collectBound nodes + rest.length := by
            simp only [List.length_append, List.length_reverse]
            have h1 : (node.childrenIds.filter
                (fun b => decide (b ∉ c :: visited))).length ≤ node.childrenIds.length :=
              List.length_filter_le _ _
            have h2 : ((childIndex nodes c).filter
                (fun b => decide (b ∉ c :: visited))).length ≤ (childIndex nodes c).length :=
              List.length_filter_le _ _
            have h3 := childrenIds_length_le nodes c node hl
            have h4 := childIndex_length_le nodes c
            unfold collectBound
            omega
          simp only [List.length_cons] at hm
          have hmul : unvisitedCount nodes (c :: visited) * (collectBound nodes + 1) +
              (collectBound nodes + 1) =
              unvisitedCount nodes visited * (collectBound nodes + 1) := by
            rw [← Nat.succ_mul, Nat.succ_eq_add_one, hcount]
          omega

/-- `collectSubtree` from `src/store/mindmapStore.ts`: collect a node and all
its descendants, traversing both the `childrenIds` links and the reverse
`parentId` index, guarded by a visited set.  The result is the source's
`result` array (insertion order), hence the final `reverse`. -/
def collectSubtree (nodeId : String) (nodes : NodeMap) : List String :=
  ((collectGo nodes (collectFuel nodes) [nodeId] []).getD []).reverse

/-- One traversal edge of `collectSubtree`: from `a` the loop reaches `b`
either through `a`'s `childrenIds` or because `b`'s entry names `a` as its
parent (the reverse index). -/
def rawEdge (m : NodeMap) (a b : String) : Prop :=
  (∃ na, lookupA m a = some na ∧ b ∈ na.childrenIds) ∨
    (∃ nb, lookupA m b = some nb ∧ nb.parentId = some a)

/-- A traversal edge between two ids that are both present in the map. -/
def kstep (m : NodeMap) (a b : String) : Prop :=
  (lookupA m a).isSome ∧ (lookupA m b).isSome ∧ rawEdge m a b

/-- Reachability along traversal edges whose endpoints are present. -/
def kreach (m : NodeMap) : String → String → Prop :=
  Relation.ReflTransGen (kstep m)

theorem mem_childIndex_of_lookupA (m : NodeMap) (p b : String) (nb : MindmapNode)
    (hl : lookupA m b = some nb) (hp : nb.parentId = some p) :
    b ∈ childIndex m p := by
  have hmem : (b, nb) ∈ m := mem_of_lookupA_eq_some _ _ _ hl
  unfold childIndex keysOf
  have : (b, nb) ∈ m.filter (fun e => decide (e.2.parentId = some p)) :=
    List.mem_filter.mpr ⟨hmem, by simp [hp]⟩
  exact List.mem_map_of_mem Prod.fst this

theorem lookupA_of_mem_childIndex (m : NodeMap) (hnd : NodupKeys m) (p b : String)
    (hb : b ∈ childIndex m p) :
    ∃ nb, lookupA m b = some nb ∧ nb.parentId = some p := by
  unfold childIndex keysOf at hb
  rcases List.mem_map.mp hb with ⟨e, he, hfst⟩
  rcases List.mem_filter.mp he with ⟨hem, hcond⟩
  refine ⟨e.2, ?_, by simpa using hcond⟩
  rw [← hfst]
  exact lookupA_eq_some_of_mem_nodup m e.1 e.2 hnd hem

theorem collectGo_visited_sub (nodes : NodeMap) (fuel : Nat) :
    ∀ stack visited out, collectGo nodes fuel stack visited = some out →
      ∀ x ∈ visited, x ∈ out := by
  induction fuel with
  | zero =>
    intro stack visited out h x hx
    cases stack with
    | nil =>
      simp [collectGo] at h
      exact h ▸ hx
    | cons c rest => simp [collectGo] at h
  | succ fuel ih =>
    intro stack visited out h x hx
    cases stack with
    | nil =>
      simp [collectGo] at h
      exact h ▸ hx
    | cons c rest =>
      by_cases hv : c ∈ visited
      · rw [collectGo, if_pos hv] at h
        exact ih _ _ _ h x hx
      · rw [collectGo, if_neg hv] at h
        cases hl : lookupA nodes c with
        | none =>
          rw [hl] at h
          exact ih _ _ _ h x hx
        | some node =>
          rw [hl] at h
          exact ih _ _ _ h x (List.mem_cons.mpr (Or.inr hx))

theorem collectGo_nodup (nodes : NodeMap) (fuel : Nat) :
    ∀ stack visited out, collectGo nodes fuel stack visited = some out →
      visited.Nodup → out.Nodup := by
  induction fuel with
  | zero =>
    intro stack visited out h hnd
    cases stack with
    | nil =>
      simp [collectGo] at h
      exact h ▸ hnd
    | cons c rest => simp [collectGo] at h
  | succ fuel ih =>
    intro stack visited out h hnd
    cases stack with
    | nil =>
      simp [collectGo] at h
      exact h ▸ hnd
    | cons c rest =>
      by_cases hv : c ∈ visited
      · rw [collectGo, if_pos hv] at h
        exact ih _ _ _ h hnd
      · rw [collectGo, if_neg hv] at h
        cases hl : lookupA nodes c with
        | none =>
          rw [hl] at h
          exact ih _ _ _ h hnd
        | some node =>
          rw [hl] at h
          exact ih _ _ _ h (List.nodup_cons.mpr ⟨hv, hnd⟩)

theorem collectGo_keys (nodes : NodeMap) (fuel : Nat) :
    ∀ stack visited out, collectGo nodes fuel stack visited = some out →
      (∀ x ∈ visited, (lookupA nodes x).isSome) →
      ∀ x ∈ out, (lookupA nodes x).isSome := by
  induction fuel with
  | zero =>
    intro stack visited out h hv x hx
    cases stack with
    | nil =>
      simp [collectGo] at h
      exact hv x (h ▸ hx)
    | cons c rest => simp [collectGo] at h
  | succ fuel ih =>
    intro stack visited out h hv x hx
    cases stack with
    | nil =>
      simp [collectGo] at h
      exact hv x (h ▸ hx)
    | cons c rest =>
      by_cases hvc : c ∈ visited
      · rw [collectGo, if_pos hvc] at h
        exact ih _ _ _ h hv x hx
      · rw [collectGo, if_neg hvc] at h
        cases hl : lookupA nodes c with
        | none =>
          rw [hl] at h
          exact ih _ _ _ h hv x hx
        | some node =>
          rw [hl] at h
          refine ih _ _ _ h ?_ x hx
          intro y hy
          rcases List.mem_cons.mp hy with h1 | h2
          · subst h1; simp [hl]
          · exact hv y h2

theorem collectGo_sound (nodes : NodeMap) (hnd : NodupKeys nodes) (start : String)
    (fuel : Nat) :
    ∀ stack visited out, collectGo nodes fuel stack visited = some out →
      (∀ x ∈ visited, (lookupA nodes x).isSome ∧ kreach nodes start x) →
      (∀ c ∈ stack, c = start ∨
        ∃ a, (lookupA nodes a).isSome ∧ kreach nodes start a ∧ rawEdge nodes a c) →
      ∀ x ∈ out, (lookupA nodes x).isSome ∧ kreach nodes start x := by
  induction fuel with
  | zero =>
    intro stack visited out h hv hs x hx
    cases stack with
    | nil =>
      simp [collectGo] at h
      exact hv x (h ▸ hx)
    | cons c rest => simp [collectGo] at h
  | succ fuel ih =>
    intro stack visited out h hv hs x hx
    cases stack with
    | nil =>
      simp [collectGo] at h
      exact hv x (h ▸ hx)
    | cons c rest =>
      by_cases hvc : c ∈ visited
      · rw [collectGo, if_pos hvc] at h
        exact ih _ _ _ h hv (fun d hd => hs d (List.mem_cons.mpr (Or.inr hd))) x hx
      · rw [collectGo, if_neg hvc] at h
        cases hl : lookupA nodes c with
        | none =>
          rw [hl] at h
          exact ih _ _ _ h hv (fun d hd => hs d (List.mem_cons.mpr (Or.inr hd))) x hx
        | some node =>
          rw [hl] at h
          have hkc : (lookupA nodes c).isSome := by simp [hl]
          have hrc : kreach nodes start c := by
            rcases hs c (List.mem_cons.mpr (Or.inl rfl)) with h1 | ⟨a, ha1, ha2, ha3⟩
            · exact h1 ▸ Relation.ReflTransGen.refl
            · exact Relation.ReflTransGen.tail ha2 ⟨ha1, hkc, ha3⟩
          refine ih _ _ _ h ?_ ?_ x hx
          · intro y hy
            rcases List.mem_cons.mp hy with h1 | h2
            · exact h1 ▸ ⟨hkc, hrc⟩
            · exact hv y h2
          · intro d hd
            rcases List.mem_append.mp hd with h1 | h2
            · right
              rcases List.mem_append.mp (List.mem_reverse.mp h1) with h3 | h4
              · refine ⟨c, hkc, hrc, Or.inl ⟨node, hl, ?_⟩⟩
                exact (List.mem_filter.mp h3).1
              · rcases lookupA_of_mem_childIndex nodes hnd c d
                  (List.mem_filter.mp h4).1 with ⟨nd, hnd1, hnd2⟩
                exact ⟨c, hkc, hrc, Or.inr ⟨nd, hnd1, hnd2⟩⟩
            · exact hs d (List.mem_cons.mpr (Or.inr h2))

theorem reach_mem_of_closed (nodes : NodeMap) (start : String) (visited : List String)
    (hA : (lookupA nodes start).isSome → start ∈ visited)
    (hB : ∀ a ∈ visited, ∀ b, (lookupA nodes b).isSome → rawEdge nodes a b →
      b ∈ visited) :
    ∀ b, (lookupA nodes b).isSome → kreach nodes start b → b ∈ visited := by
  intro b hb hr
  induction hr with
  | refl => exact hA hb
  | tail hyx hstep ih =>
    exact hB _ (ih hstep.1) _ hstep.2.1 hstep.2.2

theorem collectGo_complete (nodes : NodeMap) (start : String) (fuel : Nat) :
    ∀ stack visited out, collectGo nodes fuel stack visited = some out →
      ((lookupA nodes start).isSome → start ∈ visited ∨ start ∈ stack) →
      (∀ a ∈ visited, ∀ b, (lookupA nodes b).isSome → rawEdge nodes a b →
        b ∈ visited ∨ b ∈ stack) →
      ∀ b, (lookupA nodes b).isSome → kreach nodes start b → b ∈ out := by
  induction fuel with
  | zero =>
    intro stack visited out h hA hB b hb hr
    cases stack with
    | nil =>
      simp [collectGo] at h
      subst h
      refine reach_mem_of_closed nodes start visited ?_ ?_ b hb hr
      · intro hks
        rcases hA hks with h1 | h1
        · exact h1
        · simp at h1
      · intro a ha b2 hb2 he
        rcases hB a ha b2 hb2 he with h1 | h1
        · exact h1
        · simp at h1
    | cons c rest => simp [collectGo] at h
  | succ fuel ih =>
    intro stack visited out h hA hB b hb hr
    cases stack with
    | nil =>
      simp [collectGo] at h
      subst h
      refine reach_mem_of_closed nodes start visited ?_ ?_ b hb hr
      · intro hks
        rcases hA hks with h1 | h1
        · exact h1
        · simp at h1
      · intro a ha b2 hb2 he
        rcases hB a ha b2 hb2 he with h1 | h1
        · exact h1
        · simp at h1
    | cons c rest =>
      by_cases hvc : c ∈ visited
      · rw [collectGo, if_pos hvc] at h
        refine ih _ _ _ h ?_ ?_ b hb hr
        · intro hks
          rcases hA hks with h1 | h1
          · exact Or.inl h1
          · rcases List.mem_cons.mp h1 with h2 | h2
            · exact Or.inl (h2 ▸ hvc)
            · exact Or.inr h2
        · intro a ha b2 hb2 he
          rcases hB a ha b2 hb2 he with h1 | h1
          · exact Or.inl h1
          · rcases List.mem_cons.mp h1 with h2 | h2
            · exact Or.inl (h2 ▸ hvc)
            · exact Or.inr h2
      · rw [collectGo, if_neg hvc] at h
        cases hl : lookupA nodes c with
        | none =>
          rw [hl] at h
          refine ih _ _ _ h ?_ ?_ b hb hr
          · intro hks
            rcases hA hks with h1 | h1
            · exact Or.inl h1
            · rcases List.mem_cons.mp h1 with h2 | h2
              · exfalso
                rw [h2, hl] at hks
                simp at hks
              · exact Or.inr h2
          · intro a ha b2 hb2 he
            rcases hB a ha b2 hb2 he with h1 | h1
            · exact Or.inl h1
            · rcases List.mem_cons.mp h1 with h2 | h2
              · exfalso
                rw [h2, hl] at hb2
                simp at hb2
              · exact Or.inr h2
        | some node =>
          rw [hl] at h
          refine ih _ _ _ h ?_ ?_ b hb hr
          · intro hks
            rcases hA hks with h1 | h1
            · exact Or.inl (List.mem_cons.mpr (Or.inr h1))
            · rcases List.mem_cons.mp h1 with h2 | h2
              · exact Or.inl (List.mem_cons.mpr (Or.inl h2))
              · exact Or.inr (List.mem_append.mpr (Or.inr h2))
          · intro a ha b2 hb2 he
            rcases List.mem_cons.mp ha with hac | hav
            · subst hac
              by_cases hbv : b2 ∈ a :: visited
              · exact Or.inl hbv
              · right
                apply List.mem_append.mpr
                left
                apply List.mem_reverse.mpr
                apply List.mem_append.mpr
                rcases he with ⟨na, hna1, hna2⟩ | ⟨nb, hnb1, hnb2⟩
                · left
                  rw [hl] at hna1
                  injection hna1 with hna1
                  subst hna1
                  exact List.mem_filter.mpr ⟨hna2, by simpa using hbv⟩
                · right
                  refine List.mem_filter.mpr ⟨?_, by simpa using hbv⟩
                  exact mem_childIndex_of_lookupA nodes a b2 nb hnb1 hnb2
            · rcases hB a hav b2 hb2 he with h1 | h1
              · exact Or.inl (List.mem_cons.mpr (Or.inr h1))
              · rcases List.mem_cons.mp h1 with h2 | h2
                · exact Or.inl (List.mem_cons.mpr (Or.inl h2))
                · exact Or.inr (List.mem_append.mpr (Or.inr h2))

theorem collectSubtree_go_eq (nodeId : String) (nodes : NodeMap) :
    ∃ visited, collectGo nodes (collectFuel nodes) [nodeId] [] = some visited ∧
      collectSubtree nodeId nodes = visited.reverse := by
  have h : (collectGo nodes (collectFuel nodes) [nodeId] []).isSome := by
    apply collectGo_isSome
    unfold collectMeasure collectFuel
    have h1 := unvisitedCount_le nodes ([] : List String)
    have h2 : unvisitedCount nodes [] * (collectBound nodes + 1) ≤
        nodes.length * (collectBound nodes + 1) :=
      Nat.mul_le_mul_right _ h1
    simp only [List.length_cons, List.length_nil]
    nlinarith
  rcases Option.isSome_iff_exists.mp h with ⟨visited, hv⟩
  exact ⟨visited, hv, by unfold collectSubtree; rw [hv]; rfl⟩

/-- Characterisation of the dual-source traversal: an id is collected iff it
is present in the map and reachable from the start id along edges that
follow either `childrenIds` or the reverse `parentId` index. -/
theorem mem_collectSubtree (nodes : NodeMap) (hnd : NodupKeys nodes)
    (start b : String) :
    b ∈ collectSubtree start nodes ↔
      (lookupA nodes b).isSome ∧ kreach nodes start b := by
  obtain ⟨visited, hv, heq⟩ := collectSubtree_go_eq start nodes
  rw [heq, List.mem_reverse]
  constructor
  · intro hb
    refine collectGo_sound nodes hnd start _ _ _ _ hv ?_ ?_ b hb
    · intro x hx
      simp at hx
    · intro c hc
      rcases List.mem_cons.mp hc with h1 | h1
      · exact Or.inl h1
      · simp at h1
  · intro hb
    refine collectGo_complete nodes start _ _ _ _ hv ?_ ?_ b hb.1 hb.2
    · intro _
      exact Or.inr (List.mem_cons.mpr (Or.inl rfl))
    · intro a ha
      simp at ha

theorem collectSubtree_nodup (nodeId : String) (nodes : NodeMap) :
    (collectSubtree nodeId nodes).Nodup := by
  obtain ⟨visited, hv, heq⟩ := collectSubtree_go_eq nodeId nodes
  rw [heq]
  exact List.nodup_reverse.mpr (collectGo_nodup nodes _ _ _ _ hv List.nodup_nil)

theorem collectSubtree_keys (nodeId : String) (nodes : NodeMap) :
    ∀ x ∈ collectSubtree nodeId nodes, (lookupA nodes x).isSome := by
  obtain ⟨visited, hv, heq⟩ := collectSubtree_go_eq nodeId nodes
  rw [heq]
  intro x hx
  exact collectGo_keys nodes _ _ _ _ hv (by intro y hy; simp at hy)
    x (List.mem_reverse.mp hx)

theorem collectSubtree_start_mem (nodeId : String) (nodes : NodeMap)
    (h : (lookupA nodes nodeId).isSome) :
    nodeId ∈ collectSubtree nodeId nodes := by
  obtain ⟨visited, hv, heq⟩ := collectSubtree_go_eq nodeId nodes
  rw [heq, List.mem_reverse]
  rcases Option.isSome_iff_exists.mp h with ⟨node, hl⟩
  cases hfuel : collectFuel nodes with
  | zero =>
    rw [hfuel] at hv
    simp [collectGo] at hv
  | succ fuel =>
    rw [hfuel] at hv
    rw [collectGo, if_neg (by simp), hl] at hv
    exact collectGo_visited_sub nodes fuel _ _ _ hv nodeId
      (List.mem_cons.mpr (Or.inl rfl))

/-- `MindmapState`, in the evolved multi-root revision of the store: the five
fields captured by history snapshots. -/
structure MindmapState where
  rootIds : List String
  nodes : NodeMap
  deletedNodes : NodeMap
  selectedNodeId : Option String
  focusBranchId : Option String
deriving DecidableEq, Repr

/-- `snapshotFromState` copies exactly the five state fields, so a history
snapshot is a `MindmapState`. -/
abbrev HistorySnapshot := MindmapState

/-- The store closure: the reactive state plus the module-level `past` and
`future` stacks.  Both stacks are kept newest first, so the JS `push`/`pop`
at the array end become `cons`/head here and `shift` (evict oldest) becomes
`dropLast`. -/
structure MindmapStore where
  state : MindmapState
  past : List HistorySnapshot
  future : List HistorySnapshot
deriving DecidableEq, Repr

def MAX_HISTORY_ENTRIES : Nat := 250

/-- `past.push(snapshot)` followed by the capacity check
`if (past.length > MAX_HISTORY_ENTRIES) past.shift()`. -/
def pushBounded (snap : HistorySnapshot) (stack : List HistorySnapshot) :
    List HistorySnapshot :=
  if MAX_HISTORY_ENTRIES < (snap :: stack).length
    then (snap :: stack).dropLast else snap :: stack

/-- `applyPatchWithHistory`: run the updater; a `null` patch leaves the store
untouched, otherwise the prior state is pushed (bounded) onto `past`, the
`future` stack is cleared and the patch committed.  Updaters return the full
merged state (the JS patch is merged into the state by `set`). -/
def applyPatchWithHistory (updater : MindmapState → Option MindmapState)
    (s : MindmapStore) : MindmapStore :=
  match updater s.state with
  | none => s
  | some st => { state := st, past := pushBounded s.state s.past, future := [] }

/-- `createNode` with the default `type = 'topic'` used by every store call
site; `nanoid(10)` and `Date.now()` are passed in as `newId` and `now`. -/
def createNode (label : String) (parentId : Option String) (newId : String)
    (now : Int) : MindmapNode :=
  { id := newId, label := label, parentId := parentId, childrenIds := [],
    type := NodeType.topic, collapsed := false, position := none,
    metadata := { notes := none, links := none, createdAt := now, updatedAt := now } }

/-- `initRoot`: append a fresh root, select it.  Always commits. -/
def initRoot (label : String) (newId : String) (now : Int)
    (s : MindmapStore) : MindmapStore :=
  let root := createNode label none newId now
  applyPatchWithHistory (fun st => some
    { st with
      rootIds := st.rootIds ++ [root.id],
      nodes := setKey st.nodes root.id root,
      selectedNodeId := some root.id }) s

/-- `addChild`: attach a fresh child under `parentId` (auto-expanding the
parent), select it, and return its id.  The fresh id is returned even when
the parent is missing and the patch is aborted. -/
def addChild (parentId label newId : String) (now : Int)
    (s : MindmapStore) : MindmapStore × String :=
  let child := createNode label (some parentId) newId now
  let s2 := applyPatchWithHistory (fun st =>
    match lookupA st.nodes parentId with
    | none => none
    | some parent => some
      { st with
        nodes := setKey (setKey st.nodes parentId
          { parent with childrenIds := parent.childrenIds ++ [child.id],
                        collapsed := false }) child.id child,
        selectedNodeId := some child.id }) s
  (s2, child.id)

/-- `Array.prototype.indexOf`: first index of `x`, or `-1`. -/
def jsIndexOf (l : List String) (x : String) : Int :=
  match l with
  | [] => -1
  | a :: t =>
    if a = x then 0
    else if jsIndexOf t x = -1 then -1 else jsIndexOf t x + 1

/-- `splice(i, 0, x)`: insert `x` at index `i` (clamped to the length). -/
def spliceInsert (l : List String) (i : Nat) (x : String) : List String :=
  l.take i ++ x :: l.drop i

/-- `addSibling`: insert a fresh node right after `siblingId` in the shared
parent's `childrenIds`; a root (or missing) sibling returns `siblingId`
unchanged without touching the state. -/
def addSibling (siblingId label newId : String) (now : Int)
    (s : MindmapStore) : MindmapStore × String :=
  match lookupA s.state.nodes siblingId with
  | none => (s, siblingId)
  | some sib =>
    match sib.parentId with
    | none => (s, siblingId)
    | some pid =>
      let newNode := createNode label (some pid) newId now
      let s2 := applyPatchWithHistory (fun st =>
        match lookupA st.nodes pid with
        | none => none
        | some parent =>
          let newChildren := spliceInsert parent.childrenIds
            (jsIndexOf parent.childrenIds siblingId + 1).toNat newNode.id
          let parent2 := { parent with childrenIds := newChildren }
          some { st with
            nodes := setKey (setKey st.nodes pid parent2) newNode.id newNode,
            selectedNodeId := some newNode.id }) s
      (s2, newNode.id)

/-- `updateLabel`: no-op when the node is absent or the label unchanged. -/
def updateLabel (nodeId label : String) (now : Int)
    (s : MindmapStore) : MindmapStore :=
  applyPatchWithHistory (fun st =>
    match lookupA st.nodes nodeId with
    | none => none
    | some node =>
      if node.label = label then none
      else
        let node2 := { node with
          label := label
          metadata := { node.metadata with updatedAt := now } }
        some { st with nodes := setKey st.nodes nodeId node2 }) s

/-- The subtree move loop shared (with swapped source and destination maps)
by `deleteNode` and `restoreNode`: for each id present in `src`, move its
entry into `dst`. -/
def moveEntries : List String → NodeMap → NodeMap → NodeMap × NodeMap
  | [], src, dst => (src, dst)
  | id :: rest, src, dst =>
    match lookupA src id with
    | none => moveEntries rest src dst
    | some n => moveEntries rest (eraseKey src id) (setKey dst id n)

/-- The first step of `deleteNode`'s patch: if the deleted node's recorded
parent is live, filter `nodeId` out of that parent's `childrenIds`. -/
def deleteParentFilter (nodeId : String) (node : MindmapNode) (nodes : NodeMap) :
    NodeMap :=
  match node.parentId with
  | some pid =>
    match lookupA nodes pid with
    | some parent => setKey nodes pid
        { parent with childrenIds :=
            parent.childrenIds.filter (fun i => decide (i ≠ nodeId)) }
    | none => nodes
  | none => nodes

/-- `deleteNode`: soft-delete the dual-source subtree of `nodeId`, filtering
it out of the live parent's `childrenIds` and of `rootIds`, and reassigning
the selection when it pointed into the deleted subtree. -/
def deleteNode (nodeId : String) (s : MindmapStore) : MindmapStore :=
  let subtreeIds := collectSubtree nodeId s.state.nodes
  match lookupA s.state.nodes nodeId with
  | none => s
  | some node =>
    applyPatchWithHistory (fun st =>
      let moved := moveEntries subtreeIds
        (deleteParentFilter nodeId node st.nodes) st.deletedNodes
      let newSelected :=
        match st.selectedNodeId with
        | some sel =>
          if sel ∈ subtreeIds then
            match node.parentId with
            | some pid => some pid
            | none =>
              (st.rootIds.filter (fun i => decide (i ≠ nodeId))).getLast?
          else some sel
        | none => none
      some { st with
        rootIds := if node.parentId = none
          then st.rootIds.filter (fun i => decide (i ≠ nodeId)) else st.rootIds,
        nodes := moved.1,
        deletedNodes := moved.2,
        selectedNodeId := newSelected }) s

/-- The re-attach step of `restoreNode`'s patch: if the restored node's
recorded parent exists among the restored live nodes and does not already
list it, append `nodeId` to the parent's `childrenIds`. -/
def restoreReattach (nodeId : String) (node : MindmapNode) (m : NodeMap) : NodeMap :=
  match node.parentId with
  | some pid =>
    match lookupA m pid with
    | some parent =>
      if nodeId ∈ parent.childrenIds then m
      else setKey m pid
        { parent with childrenIds := parent.childrenIds ++ [nodeId] }
    | none => m
  | none => m

/-- `restoreNode`: move the dual-source subtree of `nodeId` (collected inside
`deletedNodes`) back into `nodes`, re-attach to the recorded parent when it
is live and does not already list the node, and re-add a parentless node to
`rootIds`. -/
def restoreNode (nodeId : String) (s : MindmapStore) : MindmapStore :=
  applyPatchWithHistory (fun st =>
    match lookupA st.deletedNodes nodeId with
    | none => none
    | some node =>
      let subtreeIds := collectSubtree nodeId st.deletedNodes
      let moved := moveEntries subtreeIds st.deletedNodes st.nodes
      some { st with
        rootIds := if node.parentId = none ∧ nodeId ∉ st.rootIds
          then st.rootIds ++ [nodeId] else st.rootIds,
        nodes := restoreReattach nodeId node moved.2,
        deletedNodes := moved.1 }) s

/-- `toggleCollapse`: no-op when absent or childless. -/
def toggleCollapse (nodeId : String) (s : MindmapStore) : MindmapStore :=
  applyPatchWithHistory (fun st =>
    match lookupA st.nodes nodeId with
    | none => none
    | some node =>
      if node.childrenIds.length = 0 then none
      else
        let node2 := { node with collapsed := !node.collapsed }
        some { st with nodes := setKey st.nodes nodeId node2 }) s

/-- `selectNode`: a plain `set`, no history push. -/
def selectNode (nodeId : Option String) (s : MindmapStore) : MindmapStore :=
  { s with state := { s.state with selectedNodeId := nodeId } }

/-- `setNodeType`: no-op when absent or unchanged. -/
def setNodeType (nodeId : String) (t : NodeType) (s : MindmapStore) : MindmapStore :=
  applyPatchWithHistory (fun st =>
    match lookupA st.nodes nodeId with
    | none => none
    | some node =>
      if node.type = t then none
      else some { st with nodes := setKey st.nodes nodeId { node with type := t } }) s

/-- `setNodePosition`: no-op when absent or when an existing override equals
the new position in both coordinates. -/
def setNodePosition (nodeId : String) (position : NodePosition) (now : Int)
    (s : MindmapStore) : MindmapStore :=
  applyPatchWithHistory (fun st =>
    match lookupA st.nodes nodeId with
    | none => none
    | some node =>
      let node2 := { node with
        position := some position
        metadata := { node.metadata with updatedAt := now } }
      match node.position with
      | some previous =>
        if previous.x = position.x ∧ previous.y = position.y then none
        else some { st with nodes := setKey st.nodes nodeId node2 }
      | none => some { st with nodes := setKey st.nodes nodeId node2 }) s

/-- `undo`: pop the newest snapshot, park the live state on `future`. -/
def undo (s : MindmapStore) : MindmapStore :=
  match s.past with
  | [] => s
  | previous :: rest =>
    { state := previous, past := rest, future := s.state :: s.future }

/-- `redo`: pop from `future`, park the live state (bounded) on `past`. -/
def redo (s : MindmapStore) : MindmapStore :=
  match s.future with
  | [] => s
  | next :: rest =>
    { state := next, past := pushBounded s.state s.past, future := rest }

/-- `clearHistory`: drop both stacks. -/
def clearHistory (s : MindmapStore) : MindmapStore :=
  { s with past := [], future := [] }

/-- The store's initial state. -/
def initialStore : MindmapStore :=
  { state := { rootIds := [], nodes := [], deletedNodes := [],
               selectedNodeId := none, focusBranchId := none },
    past := [], future := [] }

/-- One store action call, with the environment-supplied fresh-id and
timestamp inputs (`nanoid`, `Date.now`) made explicit parameters. -/
inductive StoreAction
  | initRoot (label newId : String) (now : Int)
  | addChild (parentId label newId : String) (now : Int)
  | addSibling (siblingId label newId : String) (now : Int)
  | updateLabel (nodeId label : String) (now : Int)
  | deleteNode (nodeId : String)
  | restoreNode (nodeId : String)
  | toggleCollapse (nodeId : String)
  | setNodeType (nodeId : String) (t : NodeType)
  | setNodePosition (nodeId : String) (position : NodePosition) (now : Int)
  | selectNode (nodeId : Option String)
  | undo
  | redo
  | clearHistory
deriving DecidableEq, Repr

/-- Dispatch an action to the corresponding store operation. -/
def applyAction : StoreAction → MindmapStore → MindmapStore
  | .initRoot label newId now, s => initRoot label newId now s
  | .addChild parentId label newId now, s => (addChild parentId label newId now s).1
  | .addSibling sid label newId now, s => (addSibling sid label newId now s).1
  | .updateLabel nodeId label now, s => updateLabel nodeId label now s
  | .deleteNode nodeId, s => deleteNode nodeId s
  | .restoreNode nodeId, s => restoreNode nodeId s
  | .toggleCollapse nodeId, s => toggleCollapse nodeId s
  | .setNodeType nodeId t, s => setNodeType nodeId t s
  | .setNodePosition nodeId position now, s => setNodePosition nodeId position now s
  | .selectNode nodeId, s => selectNode nodeId s
  | .undo, s => undo s
  | .redo, s => redo s
  | .clearHistory, s => clearHistory s

/-- The nine state-mutating operations (those routed through
`applyPatchWithHistory`); selection and the history controls are not. -/
def isMutating : StoreAction → Bool
  | .initRoot _ _ _ => true
  | .addChild _ _ _ _ => true
  | .addSibling _ _ _ _ => true
  | .updateLabel _ _ _ => true
  | .deleteNode _ => true
  | .restoreNode _ => true
  | .toggleCollapse _ => true
  | .setNodeType _ _ => true
  | .setNodePosition _ _ _ => true
  | .selectNode _ => false
  | .undo => false
  | .redo => false
  | .clearHistory => false

/-- Whether an action's updater produces a patch (rather than the `null`
no-op) on a given state: the per-operation no-op conditions of the store. -/
def commits : StoreAction → MindmapState → Bool
  | .initRoot _ _ _, _ => true
  | .addChild parentId _ _ _, st => (lookupA st.nodes parentId).isSome
  | .addSibling sid _ _ _, st =>
    match lookupA st.nodes sid with
    | none => false
    | some sib =>
      match sib.parentId with
      | none => false
      | some pid => (lookupA st.nodes pid).isSome
  | .updateLabel nodeId label _, st =>
    match lookupA st.nodes nodeId with
    | none => false
    | some node => decide (node.label ≠ label)
  | .deleteNode nodeId, st => (lookupA st.nodes nodeId).isSome
  | .restoreNode nodeId, st => (lookupA st.deletedNodes nodeId).isSome
  | .toggleCollapse nodeId, st =>
    match lookupA st.nodes nodeId with
    | none => false
    | some node => decide (node.childrenIds.length ≠ 0)
  | .setNodeType nodeId t, st =>
    match lookupA st.nodes nodeId with
    | none => false
    | some node => decide (node.type ≠ t)
  | .setNodePosition nodeId position _, st =>
    match lookupA st.nodes nodeId with
    | none => false
    | some node =>
      match node.position with
      | some previous => decide (¬(previous.x = position.x ∧ previous.y = position.y))
      | none => true
  | .selectNode _, _ => false
  | .undo, _ => false
  | .redo, _ => false
  | .clearHistory, _ => false

theorem pushBounded_cons (snap : HistorySnapshot) (stack : List HistorySnapshot) :
    ∃ rest, pushBounded snap stack = snap :: rest := by
  unfold pushBounded
  by_cases h : MAX_HISTORY_ENTRIES < (snap :: stack).length
  · rw [if_pos h]
    cases stack with
    | nil =>
      exfalso
      simp [MAX_HISTORY_ENTRIES] at h
    | cons y ys =>
      exact ⟨(y :: ys).dropLast, List.dropLast_cons₂⟩
  · rw [if_neg h]
    exact ⟨stack, rfl⟩

theorem pushBounded_length (snap : HistorySnapshot) (stack : List HistorySnapshot)
    (h : stack.length ≤ MAX_HISTORY_ENTRIES) :
    (pushBounded snap stack).length ≤ MAX_HISTORY_ENTRIES := by
  unfold pushBounded
  by_cases hlt : MAX_HISTORY_ENTRIES < (snap :: stack).length
  · rw [if_pos hlt]
    rw [List.length_dropLast, List.length_cons]
    omega
  · rw [if_neg hlt]
    rw [List.length_cons]
    rw [List.length_cons] at hlt
    omega

theorem pushBounded_evict (snap : HistorySnapshot) (stack : List HistorySnapshot)
    (h : MAX_HISTORY_ENTRIES ≤ stack.length) :
    pushBounded snap stack = (snap :: stack).dropLast := by
  unfold pushBounded
  rw [if_pos (by rw [List.length_cons]; omega)]

theorem pushBounded_keep (snap : HistorySnapshot) (stack : List HistorySnapshot)
    (h : stack.length < MAX_HISTORY_ENTRIES) :
    pushBounded snap stack = snap :: stack := by
  unfold pushBounded
  rw [if_neg (by rw [List.length_cons]; omega)]

/-- A committed mutating action routes through `applyPatchWithHistory` with a
non-null patch: the prior state is pushed (bounded) and `future` cleared. -/
theorem applyAction_commits (a : StoreAction) (s : MindmapStore)
    (hmut : isMutating a = true) (hc : commits a s.state = true) :
    (applyAction a s).past = pushBounded s.state s.past ∧
      (applyAction a s).future = [] := by
  cases a with
  | initRoot label newId now =>
    simp [applyAction, initRoot, applyPatchWithHistory]
  | addChild parentId label newId now =>
    rcases Option.isSome_iff_exists.mp hc with ⟨parent, hp⟩
    simp [applyAction, addChild, applyPatchWithHistory, hp]
  | addSibling sid label newId now =>
    cases hsib : lookupA s.state.nodes sid with
    | none => simp [commits, hsib] at hc
    | some sib =>
      cases hp : sib.parentId with
      | none => simp [commits, hsib, hp] at hc
      | some pid =>
        simp only [commits, hsib, hp] at hc
        rcases Option.isSome_iff_exists.mp hc with ⟨parent, hpar⟩
        simp [applyAction, addSibling, hsib, hp, applyPatchWithHistory, hpar]
  | updateLabel nodeId label now =>
    cases hn : lookupA s.state.nodes nodeId with
    | none => simp [commits, hn] at hc
    | some node =>
      simp only [commits, hn, decide_eq_true_eq] at hc
      simp [applyAction, updateLabel, applyPatchWithHistory, hn, hc]
  | deleteNode nodeId =>
    rcases Option.isSome_iff_exists.mp hc with ⟨node, hn⟩
    simp [applyAction, deleteNode, applyPatchWithHistory, hn]
  | restoreNode nodeId =>
    rcases Option.isSome_iff_exists.mp hc with ⟨node, hn⟩
    simp [applyAction, restoreNode, applyPatchWithHistory, hn]
  | toggleCollapse nodeId =>
    cases hn : lookupA s.state.nodes nodeId with
    | none => simp [commits, hn] at hc
    | some node =>
      simp only [commits, hn, decide_eq_true_eq] at hc
      simp [applyAction, toggleCollapse, applyPatchWithHistory, hn, hc]
  | setNodeType nodeId t =>
    cases hn : lookupA s.state.nodes nodeId with
    | none => simp [commits, hn] at hc
    | some node =>
      simp only [commits, hn, decide_eq_true_eq] at hc
      simp [applyAction, setNodeType, applyPatchWithHistory, hn, hc]
  | setNodePosition nodeId position now =>
    cases hn : lookupA s.state.nodes nodeId with
    | none => simp [commits, hn] at hc
    | some node =>
      cases hpos : node.position with
      | none =>
        simp [applyAction, setNodePosition, applyPatchWithHistory, hn, hpos]
      | some previous =>
        simp only [commits, hn, hpos, decide_eq_true_eq] at hc
        simp [applyAction, setNodePosition, applyPatchWithHistory, hn, hpos, hc]
  | selectNode nodeId => simp [isMutating] at hmut
  | undo => simp [isMutating] at hmut
  | redo => simp [isMutating] at hmut
  | clearHistory => simp [isMutating] at hmut

/-- A mutating action whose updater returns `null` leaves the whole store
(state and both stacks) untouched. -/
theorem applyAction_no_commit (a : StoreAction) (s : MindmapStore)
    (hmut : isMutating a = true) (hc : commits a s.state = false) :
    applyAction a s = s := by
  cases a with
  | initRoot label newId now => simp [commits] at hc
  | addChild parentId label newId now =>
    have hp : lookupA s.state.nodes parentId = none := by
      simp only [commits] at hc
      exact Option.not_isSome_iff_eq_none.mp (by simp [hc])
    simp [applyAction, addChild, applyPatchWithHistory, hp]
  | addSibling sid label newId now =>
    cases hsib : lookupA s.state.nodes sid with
    | none => simp [applyAction, addSibling, hsib]
    | some sib =>
      cases hp : sib.parentId with
      | none => simp [applyAction, addSibling, hsib, hp]
      | some pid =>
        simp only [commits, hsib, hp] at hc
        have hpar : lookupA s.state.nodes pid = none :=
          Option.not_isSome_iff_eq_none.mp (by simp [hc])
        simp [applyAction, addSibling, hsib, hp, applyPatchWithHistory, hpar]
  | updateLabel nodeId label now =>
    cases hn : lookupA s.state.nodes nodeId with
    | none => simp [applyAction, updateLabel, applyPatchWithHistory, hn]
    | some node =>
      simp only [commits, hn, decide_eq_true_eq] at hc
      have heq : node.label = label := by
        by_contra hne
        simp [hne] at hc
      simp [applyAction, updateLabel, applyPatchWithHistory, hn, heq]
  | deleteNode nodeId =>
    have hn : lookupA s.state.nodes nodeId = none := by
      simp only [commits] at hc
      exact Option.not_isSome_iff_eq_none.mp (by simp [hc])
    simp [applyAction, deleteNode, hn]
  | restoreNode nodeId =>
    have hn : lookupA s.state.deletedNodes nodeId = none := by
      simp only [commits] at hc
      exact Option.not_isSome_iff_eq_none.mp (by simp [hc])
    simp [applyAction, restoreNode, applyPatchWithHistory, hn]
  | toggleCollapse nodeId =>
    cases hn : lookupA s.state.nodes nodeId with
    | none => simp [applyAction, toggleCollapse, applyPatchWithHistory, hn]
    | some node =>
      simp only [commits, hn, decide_eq_true_eq] at hc
      have heq : node.childrenIds.length = 0 := by
        by_contra hne
        simp [hne] at hc
      simp [applyAction, toggleCollapse, applyPatchWithHistory, hn, heq]
  | setNodeType nodeId t =>
    cases hn : lookupA s.state.nodes nodeId with
    | none => simp [applyAction, setNodeType, applyPatchWithHistory, hn]
    | some node =>
      simp only [commits, hn, decide_eq_true_eq] at hc
      have heq : node.type = t := by
        by_contra hne
        simp [hne] at hc
      simp [applyAction, setNodeType, applyPatchWithHistory, hn, heq]
  | setNodePosition nodeId position now =>
    cases hn : lookupA s.state.nodes nodeId with
    | none => simp [applyAction, setNodePosition, applyPatchWithHistory, hn]
    | some node =>
      cases hpos : node.position with
      | none => simp [commits, hn, hpos] at hc
      | some previous =>
        simp only [commits, hn, hpos] at hc
        rw [decide_eq_false_iff_not] at hc
        have heq : previous.x = position.x ∧ previous.y = position.y := by
          by_contra hne
          exact hc hne
        simp [applyAction, setNodePosition, applyPatchWithHistory, hn, hpos, heq]
  | selectNode nodeId => simp [isMutating] at hmut
  | undo => simp [isMutating] at hmut
  | redo => simp [isMutating] at hmut
  | clearHistory => simp [isMutating] at hmut

theorem history_bound_step (a : StoreAction) (s : MindmapStore)
    (h : s.past.length ≤ MAX_HISTORY_ENTRIES) :
    (applyAction a s).past.length ≤ MAX_HISTORY_ENTRIES := by
  by_cases hmut : isMutating a = true
  · by_cases hc : commits a s.state = true
    · rw [(applyAction_commits a s hmut hc).1]
      exact pushBounded_length _ _ h
    · rw [applyAction_no_commit a s hmut (by simpa using hc)]
      exact h
  · cases a with
    | selectNode nodeId => simpa [applyAction, selectNode] using h
    | undo =>
      cases hp : s.past with
      | nil => simp [applyAction, undo, hp]
      | cons previous rest =>
        rw [hp] at h
        simp only [applyAction, undo, hp, List.length_cons] at h ⊢
        omega
    | redo =>
      cases hf : s.future with
      | nil => simpa [applyAction, redo, hf] using h
      | cons next rest =>
        simp only [applyAction, redo, hf]
        exact pushBounded_length _ _ h
    | clearHistory => simp [applyAction, clearHistory, MAX_HISTORY_ENTRIES]
    | initRoot label newId now => simp [isMutating] at hmut
    | addChild parentId label newId now => simp [isMutating] at hmut
    | addSibling sid label newId now => simp [isMutating] at hmut
    | updateLabel nodeId label now => simp [isMutating] at hmut
    | deleteNode nodeId => simp [isMutating] at hmut
    | restoreNode nodeId => simp [isMutating] at hmut
    | toggleCollapse nodeId => simp [isMutating] at hmut
    | setNodeType nodeId t => simp [isMutating] at hmut
    | setNodePosition nodeId position now => simp [isMutating] at hmut

theorem future_not_growing (a : StoreAction) (s : MindmapStore)
    (ha : a ≠ StoreAction.undo) :
    ((applyAction a s).future).length ≤ s.future.length := by
  by_cases hmut : isMutating a = true
  · by_cases hc : commits a s.state = true
    · rw [(applyAction_commits a s hmut hc).2]
      simp
    · rw [applyAction_no_commit a s hmut (by simpa using hc)]
  · cases a with
    | selectNode nodeId => simp [applyAction, selectNode]
    | undo => exact absurd rfl ha
    | redo =>
      cases hf : s.future with
      | nil => simp [applyAction, redo, hf]
      | cons next rest => simp [applyAction, redo, hf]
    | clearHistory => simp [applyAction, clearHistory]
    | initRoot label newId now => simp [isMutating] at hmut
    | addChild parentId label newId now => simp [isMutating] at hmut
    | addSibling sid label newId now => simp [isMutating] at hmut
    | updateLabel nodeId label now => simp [isMutating] at hmut
    | deleteNode nodeId => simp [isMutating] at hmut
    | restoreNode nodeId => simp [isMutating] at hmut
    | toggleCollapse nodeId => simp [isMutating] at hmut
    | setNodeType nodeId t => simp [isMutating] at hmut
    | setNodePosition nodeId position now => simp [isMutating] at hmut

theorem lookupA_setKey_isSome {β : Type} (m : EntryMap β) (k k' : String) (v : β)
    (h : (lookupA m k').isSome) : (lookupA (setKey m k v) k').isSome := by
  by_cases he : k' = k
  · subst he
    simp [lookupA_setKey_self]
  · rw [lookupA_setKey_ne m k k' v he]
    exact h

theorem moveEntries_src_mono_none (l : List String) :
    ∀ src dst id, lookupA src id = none →
      lookupA (moveEntries l src dst).1 id = none := by
  induction l with
  | nil =>
    intro src dst id h
    exact h
  | cons hd rest ih =>
    intro src dst id h
    cases hl : lookupA src hd with
    | none =>
      rw [moveEntries, hl]
      exact ih _ _ _ h
    | some n =>
      rw [moveEntries, hl]
      apply ih
      by_cases he : id = hd
      · subst he
        exact lookupA_eraseKey_self _ _
      · rw [lookupA_eraseKey_ne _ _ _ he]
        exact h

theorem moveEntries_src_final_none (l : List String) :
    ∀ src dst id, id ∈ l → lookupA (moveEntries l src dst).1 id = none := by
  induction l with
  | nil =>
    intro src dst id h
    simp at h
  | cons hd rest ih =>
    intro src dst id h
    rcases List.mem_cons.mp h with h1 | h2
    · subst h1
      cases hl : lookupA src id with
      | none =>
        rw [moveEntries, hl]
        exact moveEntries_src_mono_none rest _ _ _ hl
      | some n =>
        rw [moveEntries, hl]
        exact moveEntries_src_mono_none rest _ _ _ (lookupA_eraseKey_self _ _)
    · cases hl : lookupA src hd with
      | none =>
        rw [moveEntries, hl]
        exact ih _ _ _ h2
      | some n =>
        rw [moveEntries, hl]
        exact ih _ _ _ h2

theorem moveEntries_src_other (l : List String) :
    ∀ src dst id, id ∉ l →
      lookupA (moveEntries l src dst).1 id = lookupA src id := by
  induction l with
  | nil =>
    intro src dst id _
    rfl
  | cons hd rest ih =>
    intro src dst id h
    have hne : id ≠ hd := fun he => h (List.mem_cons.mpr (Or.inl he))
    have hrest : id ∉ rest := fun he => h (List.mem_cons.mpr (Or.inr he))
    cases hl : lookupA src hd with
    | none =>
      rw [moveEntries, hl]
      exact ih _ _ _ hrest
    | some n =>
      rw [moveEntries, hl, ih _ _ _ hrest]
      exact lookupA_eraseKey_ne _ _ _ hne

theorem moveEntries_dst_other (l : List String) :
    ∀ src dst id, id ∉ l →
      lookupA (moveEntries l src dst).2 id = lookupA dst id := by
  induction l with
  | nil =>
    intro src dst id _
    rfl
  | cons hd rest ih =>
    intro src dst id h
    have hne : id ≠ hd := fun he => h (List.mem_cons.mpr (Or.inl he))
    have hrest : id ∉ rest := fun he => h (List.mem_cons.mpr (Or.inr he))
    cases hl : lookupA src hd with
    | none =>
      rw [moveEntries, hl]
      exact ih _ _ _ hrest
    | some n =>
      rw [moveEntries, hl, ih _ _ _ hrest]
      exact lookupA_setKey_ne _ _ _ _ hne

theorem moveEntries_dst_moved (l : List String) :
    ∀ src dst id n, l.Nodup → id ∈ l → lookupA src id = some n →
      lookupA (moveEntries l src dst).2 id = some n := by
  induction l with
  | nil =>
    intro src dst id n _ h _
    simp at h
  | cons hd rest ih =>
    intro src dst id n hnd h hsrc
    rcases List.mem_cons.mp h with h1 | h2
    · subst h1
      rw [moveEntries, hsrc]
      have hrest : id ∉ rest := (List.nodup_cons.mp hnd).1
      rw [moveEntries_dst_other rest _ _ _ hrest]
      exact lookupA_setKey_self _ _ _
    · have hne : id ≠ hd := by
        intro he
        exact (List.nodup_cons.mp hnd).1 (he ▸ h2)
      cases hl : lookupA src hd with
      | none =>
        rw [moveEntries, hl]
        exact ih _ _ _ _ (List.nodup_cons.mp hnd).2 h2 hsrc
      | some m =>
        rw [moveEntries, hl]
        apply ih _ _ _ _ (List.nodup_cons.mp hnd).2 h2
        rw [lookupA_eraseKey_ne _ _ _ hne]
        exact hsrc

theorem moveEntries_nodupKeys (l : List String) :
    ∀ src dst, NodupKeys src → NodupKeys dst →
      NodupKeys (moveEntries l src dst).1 ∧ NodupKeys (moveEntries l src dst).2 := by
  induction l with
  | nil =>
    intro src dst h1 h2
    exact ⟨h1, h2⟩
  | cons hd rest ih =>
    intro src dst h1 h2
    cases hl : lookupA src hd with
    | none =>
      rw [moveEntries, hl]
      exact ih _ _ h1 h2
    | some n =>
      rw [moveEntries, hl]
      exact ih _ _ (nodupKeys_eraseKey _ _ h1) (nodupKeys_setKey _ _ _ h2)

theorem deleteParentFilter_isSome (nodeId : String) (node : MindmapNode)
    (nodes : NodeMap) (id : String) (h : (lookupA nodes id).isSome) :
    (lookupA (deleteParentFilter nodeId node nodes) id).isSome := by
  unfold deleteParentFilter
  cases hpid : node.parentId with
  | none => exact h
  | some pid =>
    cases hp : lookupA nodes pid with
    | none => simp only [hp]; exact h
    | some parent => simp only [hp]; exact lookupA_setKey_isSome _ _ _ _ h

theorem deleteParentFilter_nodupKeys (nodeId : String) (node : MindmapNode)
    (nodes : NodeMap) (h : NodupKeys nodes) :
    NodupKeys (deleteParentFilter nodeId node nodes) := by
  unfold deleteParentFilter
  cases hpid : node.parentId with
  | none => exact h
  | some pid =>
    cases hp : lookupA nodes pid with
    | none => simp only [hp]; exact h
    | some parent => simp only [hp]; exact nodupKeys_setKey _ _ _ h

theorem deleteParentFilter_pid (nodeId : String) (node : MindmapNode)
    (nodes : NodeMap) (pid : String) (parent : MindmapNode)
    (hpid : node.parentId = some pid) (hp : lookupA nodes pid = some parent) :
    lookupA (deleteParentFilter nodeId node nodes) pid =
      some { parent with childrenIds :=
        parent.childrenIds.filter (fun i => decide (i ≠ nodeId)) } := by
  simp only [deleteParentFilter, hpid, hp]
  exact lookupA_setKey_self _ _ _

theorem deleteParentFilter_shape (nodeId : String) (node : MindmapNode)
    (nodes : NodeMap) (id : String) (n1 : MindmapNode)
    (h : lookupA (deleteParentFilter nodeId node nodes) id = some n1) :
    ∃ n0, lookupA nodes id = some n0 ∧ n1.parentId = n0.parentId ∧
      (n1.childrenIds = n0.childrenIds ∨
        (node.parentId = some id ∧
          n1.childrenIds = n0.childrenIds.filter (fun i => decide (i ≠ nodeId)))) := by
  cases hpid : node.parentId with
  | none =>
    simp only [deleteParentFilter, hpid] at h
    exact ⟨n1, h, rfl, Or.inl rfl⟩
  | some pid =>
    cases hp : lookupA nodes pid with
    | none =>
      simp only [deleteParentFilter, hpid, hp] at h
      exact ⟨n1, h, rfl, Or.inl rfl⟩
    | some parent =>
      simp only [deleteParentFilter, hpid, hp] at h
      by_cases he : id = pid
      · subst he
        rw [lookupA_setKey_self] at h
        injection h with h
        subst h
        exact ⟨parent, hp, rfl, Or.inr ⟨rfl, rfl⟩⟩
      · rw [lookupA_setKey_ne _ _ _ _ he] at h
        exact ⟨n1, h, rfl, Or.inl rfl⟩

theorem restoreReattach_isSome (nodeId : String) (node : MindmapNode)
    (m : NodeMap) (id : String) (h : (lookupA m id).isSome) :
    (lookupA (restoreReattach nodeId node m) id).isSome := by
  cases hpid : node.parentId with
  | none =>
    simp only [restoreReattach, hpid]
    exact h
  | some pid =>
    cases hp : lookupA m pid with
    | none =>
      simp only [restoreReattach, hpid, hp]
      exact h
    | some parent =>
      simp only [restoreReattach, hpid, hp]
      by_cases hmem : nodeId ∈ parent.childrenIds
      · rw [if_pos hmem]
        exact h
      · rw [if_neg hmem]
        exact lookupA_setKey_isSome _ _ _ _ h

theorem restoreReattach_parent_mem (nodeId : String) (node : MindmapNode)
    (m : NodeMap) (pid : String) (q : MindmapNode)
    (hpid : node.parentId = some pid) (hq : lookupA m pid = some q) :
    ∃ p2, lookupA (restoreReattach nodeId node m) pid = some p2 ∧
      nodeId ∈ p2.childrenIds := by
  simp only [restoreReattach, hpid, hq]
  by_cases hmem : nodeId ∈ q.childrenIds
  · rw [if_pos hmem]
    exact ⟨q, hq, hmem⟩
  · rw [if_neg hmem]
    refine ⟨_, lookupA_setKey_self _ _ _, ?_⟩
    simp

theorem restoreReattach_none (nodeId : String) (node : MindmapNode)
    (m : NodeMap) (id : String) (h : lookupA m id = none) :
    lookupA (restoreReattach nodeId node m) id = none := by
  cases hpid : node.parentId with
  | none =>
    simp only [restoreReattach, hpid]
    exact h
  | some pid =>
    cases hp : lookupA m pid with
    | none =>
      simp only [restoreReattach, hpid, hp]
      exact h
    | some parent =>
      simp only [restoreReattach, hpid, hp]
      by_cases hmem : nodeId ∈ parent.childrenIds
      · rw [if_pos hmem]
        exact h
      · rw [if_neg hmem]
        have hne : id ≠ pid := by
          intro he
          rw [he, hp] at h
          exact Option.noConfusion h
        rw [lookupA_setKey_ne _ _ _ _ hne]
        exact h

/-- The nodes/deletedNodes fields produced by a successful `deleteNode`. -/
theorem deleteNode_state (nodeId : String) (s : MindmapStore) (node : MindmapNode)
    (h : lookupA s.state.nodes nodeId = some node) :
    (deleteNode nodeId s).state.nodes =
        (moveEntries (collectSubtree nodeId s.state.nodes)
          (deleteParentFilter nodeId node s.state.nodes) s.state.deletedNodes).1 ∧
      (deleteNode nodeId s).state.deletedNodes =
        (moveEntries (collectSubtree nodeId s.state.nodes)
          (deleteParentFilter nodeId node s.state.nodes) s.state.deletedNodes).2 := by
  constructor <;> simp [deleteNode, h, applyPatchWithHistory]

/-- The nodes/deletedNodes fields produced by a successful `restoreNode`. -/
theorem restoreNode_state (nodeId : String) (s : MindmapStore) (node : MindmapNode)
    (h : lookupA s.state.deletedNodes nodeId = some node) :
    (restoreNode nodeId s).state.nodes =
        restoreReattach nodeId node
          (moveEntries (collectSubtree nodeId s.state.deletedNodes)
            s.state.deletedNodes s.state.nodes).2 ∧
      (restoreNode nodeId s).state.deletedNodes =
        (moveEntries (collectSubtree nodeId s.state.deletedNodes)
          s.state.deletedNodes s.state.nodes).1 := by
  constructor <;> simp [restoreNode, h, applyPatchWithHistory]

theorem undo_eq_of_past (s' : MindmapStore) (x : HistorySnapshot)
    (r : List HistorySnapshot) (h : s'.past = x :: r) :
    undo s' = { state := x, past := r, future := s'.state :: s'.future } := by
  cases s' with
  | mk st past fut =>
    simp only at h
    subst h
    rfl

theorem redo_eq_of_future (s' : MindmapStore) (y : HistorySnapshot)
    (r : List HistorySnapshot) (h : s'.future = y :: r) :
    redo s' = { state := y, past := pushBounded s'.state s'.past, future := r } := by
  cases s' with
  | mk st past fut =>
    simp only at h
    subst h
    rfl

theorem history_bound_foldl (acts : List StoreAction) :
    ∀ s : MindmapStore, s.past.length ≤ MAX_HISTORY_ENTRIES →
      ((acts.foldl (fun st a => applyAction a st) s).past).length ≤
        MAX_HISTORY_ENTRIES := by
  induction acts with
  | nil =>
    intro s h
    simpa using h
  | cons a rest ih =>
    intro s h
    simp only [List.foldl_cons]
    exact ih _ (history_bound_step a s h)

/-- A shorthand node constructor for concrete examples. -/
def mkNode (id : String) (pid : Option String) (children : List String) :
    MindmapNode :=
  { id := id, label := id, parentId := pid, childrenIds := children,
    type := NodeType.topic, collapsed := false, position := none,
    metadata := { notes := none, links := none, createdAt := 0, updatedAt := 0 } }

/-- A drifted concrete store: node `b` records parent `a`, but `a`'s
`childrenIds` has been emptied, so `b` is reachable only through the
reverse `parentId` index. -/
def driftStore : MindmapStore :=
  { state := { rootIds := ["a"],
               nodes := [("a", mkNode "a" none []), ("b", mkNode "b" (some "a") [])],
               deletedNodes := [], selectedNodeId := none, focusBranchId := none },
    past := [], future := [] }

/-- A node table whose parent and child links form a cycle. -/
def cyclicNodes : NodeMap :=
  [("a", mkNode "a" (some "b") ["b"]), ("b", mkNode "b" (some "a") ["a"])]

/-- C1: for every node N in `nodes` with dual-source subtree D (collected via
`childrenIds` links unioned with the reverse `parentId` index),
`deleteNode N` removes every id of D (N included) from `nodes` and adds it to
`deletedNodes`, and N's former live parent's `childrenIds` — wherever that
parent's entry ends up — no longer contains N.  The hypotheses are the
documented store invariant that `nodes` and `deletedNodes` are disjoint; the
parent's `childrenIds` need not list N (drift tolerance). -/
theorem deleteNode_removes_subtree (s : MindmapStore) (nodeId : String)
    (node : MindmapNode) (h : lookupA s.state.nodes nodeId = some node)
    (hdisj : ∀ k, (lookupA s.state.nodes k).isSome →
      lookupA s.state.deletedNodes k = none) :
    (∀ id ∈ collectSubtree nodeId s.state.nodes,
      lookupA (deleteNode nodeId s).state.nodes id = none ∧
        (lookupA (deleteNode nodeId s).state.deletedNodes id).isSome) ∧
    ∀ pid, node.parentId = some pid → (lookupA s.state.nodes pid).isSome →
      ∀ p2, (lookupA (deleteNode nodeId s).state.nodes pid = some p2 ∨
          lookupA (deleteNode nodeId s).state.deletedNodes pid = some p2) →
        nodeId ∉ p2.childrenIds := by
  obtain ⟨hn, hd⟩ := deleteNode_state nodeId s node h
  constructor
  · intro id hid
    constructor
    · rw [hn]
      exact moveEntries_src_final_none _ _ _ _ hid
    · rw [hd]
      have hk : (lookupA s.state.nodes id).isSome :=
        collectSubtree_keys _ _ id hid
      have hk1 : (lookupA (deleteParentFilter nodeId node s.state.nodes) id).isSome :=
        deleteParentFilter_isSome _ _ _ _ hk
      rcases Option.isSome_iff_exists.mp hk1 with ⟨n1, hn1v⟩
      rw [moveEntries_dst_moved _ _ _ _ _ (collectSubtree_nodup _ _) hid hn1v]
      rfl
  · intro pid hpid hpk p2 hp2
    rcases Option.isSome_iff_exists.mp hpk with ⟨parent, hpar⟩
    have hfilt := deleteParentFilter_pid nodeId node s.state.nodes pid parent hpid hpar
    by_cases hmem : pid ∈ collectSubtree nodeId s.state.nodes
    · rcases hp2 with hp2 | hp2
      · rw [hn, moveEntries_src_final_none _ _ _ _ hmem] at hp2
        exact Option.noConfusion hp2
      · rw [hd, moveEntries_dst_moved _ _ _ _ _
          (collectSubtree_nodup _ _) hmem hfilt] at hp2
        injection hp2 with hp2
        subst hp2
        simp
    · rcases hp2 with hp2 | hp2
      · rw [hn, moveEntries_src_other _ _ _ _ hmem, hfilt] at hp2
        injection hp2 with hp2
        subst hp2
        simp
      · rw [hd, moveEntries_dst_other _ _ _ _ hmem, hdisj pid hpk] at hp2
        exact Option.noConfusion hp2

/-- C1 witness: deleting drifted root `a` also removes `b`, which is only
reachable through the reverse `parentId` index. -/
theorem deleteNode_removes_subtree_witness :
    lookupA driftStore.state.nodes "a" = some (mkNode "a" none []) ∧
      "b" ∈ collectSubtree "a" driftStore.state.nodes ∧
      lookupA (deleteNode "a" driftStore).state.nodes "b" = none ∧
      (lookupA (deleteNode "a" driftStore).state.deletedNodes "b").isSome := by
  have hmain := deleteNode_removes_subtree driftStore "a" (mkNode "a" none [])
    rfl (fun k _ => rfl)
  have hb : "b" ∈ collectSubtree "a" driftStore.state.nodes := by decide
  exact ⟨rfl, hb, (hmain.1 "b" hb).1, (hmain.1 "b" hb).2⟩

/-- The live-node map right after `deleteNode nodeId` on a store whose node
table was `nodes` and deleted table `deleted0`. -/
def nodesAfter (nodeId : String) (node : MindmapNode)
    (nodes deleted0 : NodeMap) : NodeMap :=
  (moveEntries (collectSubtree nodeId nodes)
    (deleteParentFilter nodeId node nodes) deleted0).1

/-- The deleted-node map right after `deleteNode nodeId`. -/
def deletedAfter (nodeId : String) (node : MindmapNode)
    (nodes deleted0 : NodeMap) : NodeMap :=
  (moveEntries (collectSubtree nodeId nodes)
    (deleteParentFilter nodeId node nodes) deleted0).2

theorem deleteNode_state2 (nodeId : String) (s : MindmapStore)
    (node : MindmapNode) (h : lookupA s.state.nodes nodeId = some node) :
    (deleteNode nodeId s).state.nodes =
        nodesAfter nodeId node s.state.nodes s.state.deletedNodes ∧
      (deleteNode nodeId s).state.deletedNodes =
        deletedAfter nodeId node s.state.nodes s.state.deletedNodes :=
  deleteNode_state nodeId s node h

/-- Every id of the deleted subtree sits in `deletedAfter` with the value it
had in the parent-filtered live map. -/
theorem moved_subtree_values (nodeId : String) (node : MindmapNode)
    (nodes deleted0 : NodeMap) :
    ∀ id ∈ collectSubtree nodeId nodes,
      ∃ n1, lookupA (deleteParentFilter nodeId node nodes) id = some n1 ∧
        lookupA (deletedAfter nodeId node nodes deleted0) id = some n1 := by
  intro id hid
  have hk := collectSubtree_keys nodeId nodes id hid
  have hk1 := deleteParentFilter_isSome nodeId node nodes id hk
  rcases Option.isSome_iff_exists.mp hk1 with ⟨n1, hn1⟩
  exact ⟨n1, hn1,
    moveEntries_dst_moved _ _ _ _ _ (collectSubtree_nodup _ _) hid hn1⟩

/-- A traversal edge between two members of the deleted subtree survives the
move into `deletedNodes`: the only link `deleteNode` severs is the filtered
child link from the parent to `nodeId`, and that edge is recovered through
`nodeId`'s unchanged `parentId` (the reverse index). -/
theorem subtree_edge_lift (nodeId : String) (node : MindmapNode)
    (nodes deleted0 : NodeMap) (h : lookupA nodes nodeId = some node)
    (y x : String) (hy : y ∈ collectSubtree nodeId nodes)
    (hx : x ∈ collectSubtree nodeId nodes) (hstep : kstep nodes y x) :
    kstep (deletedAfter nodeId node nodes deleted0) y x := by
  obtain ⟨ny1, hy1, hy2⟩ := moved_subtree_values nodeId node nodes deleted0 y hy
  obtain ⟨nx1, hx1, hx2⟩ := moved_subtree_values nodeId node nodes deleted0 x hx
  obtain ⟨ny0, hy0, hypid, hychild⟩ := deleteParentFilter_shape _ _ _ _ _ hy1
  obtain ⟨nx0, hx0, hxpid, _⟩ := deleteParentFilter_shape _ _ _ _ _ hx1
  refine ⟨by simp [hy2], by simp [hx2], ?_⟩
  rcases hstep.2.2 with ⟨na, hna, hmem⟩ | ⟨nb, hnb, hbpid⟩
  · have hna0 : na = ny0 := by
      rw [hna] at hy0
      injection hy0
    subst hna0
    rcases hychild with hsame | ⟨hpidy, hfilt⟩
    · exact Or.inl ⟨ny1, hy2, hsame ▸ hmem⟩
    · by_cases hxn : x = nodeId
      · subst hxn
        have hnode : nx0 = node := by
          rw [hx0] at h
          injection h
        exact Or.inr ⟨nx1, hx2, by rw [hxpid, hnode, hpidy]⟩
      · exact Or.inl ⟨ny1, hy2, by
          rw [hfilt]
          exact List.mem_filter.mpr ⟨hmem, by simp [hxn]⟩⟩
  · have hnb0 : nb = nx0 := by
      rw [hnb] at hx0
      injection hx0
    subst hnb0
    exact Or.inr ⟨nx1, hx2, by rw [hxpid, hbpid]⟩

/-- Reachability from `nodeId` inside the old live map transfers to the
deleted map produced by `deleteNode`. -/
theorem subtree_reach_lift (nodeId : String) (node : MindmapNode)
    (nodes deleted0 : NodeMap) (h : lookupA nodes nodeId = some node)
    (hndn : NodupKeys nodes) :
    ∀ x, kreach nodes nodeId x →
      kreach (deletedAfter nodeId node nodes deleted0) nodeId x := by
  intro x hr
  induction hr with
  | refl => exact Relation.ReflTransGen.refl
  | tail hyx hstep ih =>
    rename_i y x2
    have hyD : y ∈ collectSubtree nodeId nodes :=
      (mem_collectSubtree nodes hndn nodeId y).mpr ⟨hstep.1, hyx⟩
    have hxD : x2 ∈ collectSubtree nodeId nodes :=
      (mem_collectSubtree nodes hndn nodeId x2).mpr
        ⟨hstep.2.1, Relation.ReflTransGen.tail hyx hstep⟩
    exact Relation.ReflTransGen.tail ih
      (subtree_edge_lift nodeId node nodes deleted0 h y x2 hyD hxD hstep)

/-- Every id collected by `deleteNode` is collected again by the restore
traversal over the deleted map. -/
theorem deleted_subtree_still_collected (nodeId : String) (node : MindmapNode)
    (nodes deleted0 : NodeMap) (h : lookupA nodes nodeId = some node)
    (hndn : NodupKeys nodes) (hndd : NodupKeys deleted0) :
    ∀ id ∈ collectSubtree nodeId nodes,
      id ∈ collectSubtree nodeId (deletedAfter nodeId node nodes deleted0) := by
  intro id hid
  have hndd2 : NodupKeys (deletedAfter nodeId node nodes deleted0) :=
    (moveEntries_nodupKeys _ _ _
      (deleteParentFilter_nodupKeys nodeId node nodes hndn) hndd).2
  obtain ⟨hk, hr⟩ := (mem_collectSubtree nodes hndn nodeId id).mp hid
  obtain ⟨n1, _, hn1⟩ := moved_subtree_values nodeId node nodes deleted0 id hid
  refine (mem_collectSubtree _ hndd2 nodeId id).mpr ⟨by simp [hn1], ?_⟩
  exact subtree_reach_lift nodeId node nodes deleted0 h hndn id hr

theorem nodesAfter_not_mem (nodeId : String) (node : MindmapNode)
    (nodes deleted0 : NodeMap) (id : String)
    (hid : id ∉ collectSubtree nodeId nodes) :
    lookupA (nodesAfter nodeId node nodes deleted0) id =
      lookupA (deleteParentFilter nodeId node nodes) id :=
  moveEntries_src_other _ _ _ _ hid

/-- C2: restoring a node right after deleting it brings the whole collected
subtree back: every id of the deleted dual-source subtree is live again and
absent from `deletedNodes`, and the parent's `childrenIds` contains the node
again.  Hypotheses are the documented store invariants that record keys are
unique (always true of a JS `Record`). -/
theorem restoreNode_after_deleteNode (s : MindmapStore) (nodeId : String)
    (node : MindmapNode) (h : lookupA s.state.nodes nodeId = some node)
    (hndn : NodupKeys s.state.nodes) (hndd : NodupKeys s.state.deletedNodes) :
    (∀ id ∈ collectSubtree nodeId s.state.nodes,
      (lookupA (restoreNode nodeId (deleteNode nodeId s)).state.nodes
        id).isSome ∧
      lookupA (restoreNode nodeId (deleteNode nodeId s)).state.deletedNodes
        id = none) ∧
    ∀ pid, node.parentId = some pid → (lookupA s.state.nodes pid).isSome →
      ∃ p2, lookupA (restoreNode nodeId (deleteNode nodeId s)).state.nodes
          pid = some p2 ∧
        nodeId ∈ p2.childrenIds := by
  obtain ⟨hn, hd⟩ := deleteNode_state2 nodeId s node h
  have hDstart : nodeId ∈ collectSubtree nodeId s.state.nodes :=
    collectSubtree_start_mem _ _ (by simp [h])
  obtain ⟨node1, h1a, h1b⟩ := moved_subtree_values nodeId node
    s.state.nodes s.state.deletedNodes nodeId hDstart
  obtain ⟨n0, hn0, hp0, _⟩ := deleteParentFilter_shape _ _ _ _ _ h1a
  have hn0node : n0 = node := by
    rw [hn0] at h
    injection h
  have hp1 : node1.parentId = node.parentId := by rw [hp0, hn0node]
  have h1b2 : lookupA (deleteNode nodeId s).state.deletedNodes nodeId =
      some node1 := by
    rw [hd]
    exact h1b
  obtain ⟨hn2, hd2⟩ := restoreNode_state nodeId (deleteNode nodeId s) node1 h1b2
  rw [hd, hn] at hn2
  rw [hd, hn] at hd2
  have hsub := deleted_subtree_still_collected nodeId node
    s.state.nodes s.state.deletedNodes h hndn hndd
  have hD2nodup : (collectSubtree nodeId
      (deletedAfter nodeId node s.state.nodes s.state.deletedNodes)).Nodup :=
    collectSubtree_nodup _ _
  constructor
  · intro id hid
    have hid2 := hsub id hid
    obtain ⟨n1, _, hvd⟩ := moved_subtree_values nodeId node
      s.state.nodes s.state.deletedNodes id hid
    constructor
    · rw [hn2]
      apply restoreReattach_isSome
      rw [moveEntries_dst_moved _ _ _ _ _ hD2nodup hid2 hvd]
      rfl
    · rw [hd2]
      exact moveEntries_src_final_none _ _ _ _ hid2
  · intro pid hpid hpk
    have hpid1 : node1.parentId = some pid := by rw [hp1, hpid]
    rcases Option.isSome_iff_exists.mp hpk with ⟨parent, hpar⟩
    have hfilt := deleteParentFilter_pid nodeId node s.state.nodes pid
      parent hpid hpar
    have hq : (lookupA (moveEntries
        (collectSubtree nodeId
          (deletedAfter nodeId node s.state.nodes s.state.deletedNodes))
        (deletedAfter nodeId node s.state.nodes s.state.deletedNodes)
        (nodesAfter nodeId node s.state.nodes s.state.deletedNodes)).2
        pid).isSome := by
      by_cases hpd : pid ∈ collectSubtree nodeId
          (deletedAfter nodeId node s.state.nodes s.state.deletedNodes)
      · have hk := collectSubtree_keys nodeId _ pid hpd
        rcases Option.isSome_iff_exists.mp hk with ⟨q0, hq0⟩
        rw [moveEntries_dst_moved _ _ _ _ _ hD2nodup hpd hq0]
        rfl
      · rw [moveEntries_dst_other _ _ _ _ hpd]
        have hpD : pid ∉ collectSubtree nodeId s.state.nodes :=
          fun hmem => hpd (hsub pid hmem)
        rw [nodesAfter_not_mem nodeId node s.state.nodes s.state.deletedNodes
          pid hpD, hfilt]
        rfl
    rcases Option.isSome_iff_exists.mp hq with ⟨q, hqv⟩
    obtain ⟨p2, hp2, hp2mem⟩ := restoreReattach_parent_mem nodeId node1 _
      pid q hpid1 hqv
    refine ⟨p2, ?_, hp2mem⟩
    rw [hn2]
    exact hp2

/-- C2 witness: delete then restore on the drifted store round-trips the
subtree and re-attaches `b`... the deleted root `a` has no parent, so the
witness exercises the subtree conjunct; a second fixture exercises the
parent conjunct. -/
theorem restoreNode_after_deleteNode_witness :
    lookupA driftStore.state.nodes "b" = some (mkNode "b" (some "a") []) ∧
      (lookupA (restoreNode "b" (deleteNode "b" driftStore)).state.nodes
        "b").isSome ∧
      lookupA (restoreNode "b" (deleteNode "b" driftStore)).state.deletedNodes
        "b" = none ∧
      ∃ p2, lookupA (restoreNode "b" (deleteNode "b" driftStore)).state.nodes
          "a" = some p2 ∧ "b" ∈ p2.childrenIds := by
  have hmain := restoreNode_after_deleteNode driftStore "b"
    (mkNode "b" (some "a") []) rfl (by unfold NodupKeys; decide)
    (by unfold NodupKeys; decide)
  have hb : "b" ∈ collectSubtree "b" driftStore.state.nodes := by decide
  exact ⟨rfl, (hmain.1 "b" hb).1, (hmain.1 "b" hb).2,
    hmain.2 "a" rfl (by rfl)⟩

/-- C3: every state-mutating operation that commits a change can be exactly
undone — `undo` right after restores the five-field state that held before
the operation — and `redo` right after that restores the mutated state, so
`mutate; undo; redo` is observationally a no-op on the state. -/
theorem mutate_undo_redo_exact (a : StoreAction) (s : MindmapStore)
    (hmut : isMutating a = true) (hc : commits a s.state = true) :
    (undo (applyAction a s)).state = s.state ∧
      (redo (undo (applyAction a s))).state = (applyAction a s).state := by
  obtain ⟨hpast, hfut⟩ := applyAction_commits a s hmut hc
  obtain ⟨rest, hrest⟩ := pushBounded_cons s.state s.past
  have hu := undo_eq_of_past (applyAction a s) s.state rest (by rw [hpast, hrest])
  constructor
  · rw [hu]
  · rw [hu]
    rw [redo_eq_of_future _ (applyAction a s).state (applyAction a s).future rfl]

/-- C3 witness: creating a root in the empty store, then undoing and
redoing, round-trips the state exactly. -/
theorem mutate_undo_redo_exact_witness :
    isMutating (StoreAction.initRoot "Root" "r1" 0) = true ∧
      commits (StoreAction.initRoot "Root" "r1" 0) initialStore.state = true ∧
      (undo (applyAction (StoreAction.initRoot "Root" "r1" 0) initialStore)).state =
        initialStore.state ∧
      (redo (undo (applyAction (StoreAction.initRoot "Root" "r1" 0)
          initialStore))).state =
        (applyAction (StoreAction.initRoot "Root" "r1" 0) initialStore).state := by
  have hmain := mutate_undo_redo_exact (StoreAction.initRoot "Root" "r1" 0)
    initialStore rfl rfl
  exact ⟨rfl, rfl, hmain.1, hmain.2⟩

/-- C4: the undo stack is bounded by 250 after any action sequence from the
initial store; a committed mutation pushes the prior snapshot (evicting the
oldest at capacity) and clears the redo stack; per-operation no-ops and
`selectNode` leave both stacks untouched; and no action other than `undo`
ever grows the redo stack. -/
theorem undo_stack_invariants :
    (∀ acts : List StoreAction,
      ((acts.foldl (fun st a => applyAction a st) initialStore).past).length ≤
        MAX_HISTORY_ENTRIES) ∧
    (∀ (a : StoreAction) (s : MindmapStore), isMutating a = true →
      commits a s.state = true →
      (applyAction a s).past = pushBounded s.state s.past ∧
        (applyAction a s).future = []) ∧
    (∀ (snap : HistorySnapshot) (stack : List HistorySnapshot),
      MAX_HISTORY_ENTRIES ≤ stack.length →
      pushBounded snap stack = (snap :: stack).dropLast) ∧
    (∀ (a : StoreAction) (s : MindmapStore), isMutating a = true →
      commits a s.state = false → applyAction a s = s) ∧
    (∀ (nid : Option String) (s : MindmapStore),
      (applyAction (StoreAction.selectNode nid) s).past = s.past ∧
        (applyAction (StoreAction.selectNode nid) s).future = s.future) ∧
    (∀ (a : StoreAction) (s : MindmapStore), a ≠ StoreAction.undo →
      ((applyAction a s).future).length ≤ s.future.length) := by
  refine ⟨?_, ?_, ?_, ?_, ?_, ?_⟩
  · intro acts
    exact history_bound_foldl acts initialStore (by simp [initialStore])
  · exact fun a s h1 h2 => applyAction_commits a s h1 h2
  · exact fun snap stack h => pushBounded_evict snap stack h
  · exact fun a s h1 h2 => applyAction_no_commit a s h1 h2
  · intro nid s
    exact ⟨rfl, rfl⟩
  · exact fun a s h => future_not_growing a s h

/-- C4 witness: concrete instances of the stack invariants. -/
theorem undo_stack_invariants_witness :
    (([StoreAction.initRoot "Root" "r1" 0,
        StoreAction.undo].foldl (fun st a => applyAction a st)
        initialStore).past).length ≤ MAX_HISTORY_ENTRIES ∧
      (applyAction (StoreAction.selectNode (some "a")) driftStore).past =
        driftStore.past ∧
      ((applyAction StoreAction.redo driftStore).future).length ≤
        driftStore.future.length := by
  refine ⟨undo_stack_invariants.1 _, ?_, ?_⟩
  · exact (undo_stack_invariants.2.2.2.2.1 (some "a") driftStore).1
  · exact undo_stack_invariants.2.2.2.2.2 StoreAction.redo driftStore (by decide)

/-- C8: no tree-store operation throws (each is a total function in this
embedding); an operation aimed at an id absent from the map it targets
leaves the store entirely unchanged, and `addSibling` on a root returns the
original `siblingId` unchanged without modifying state. -/
theorem store_ops_noop_on_failure :
    (∀ (s : MindmapStore) (parentId label newId : String) (now : Int),
      lookupA s.state.nodes parentId = none →
        (addChild parentId label newId now s).1 = s) ∧
    (∀ (s : MindmapStore) (sid label newId : String) (now : Int),
      lookupA s.state.nodes sid = none →
        addSibling sid label newId now s = (s, sid)) ∧
    (∀ (s : MindmapStore) (sid label newId : String) (now : Int)
        (sib : MindmapNode),
      lookupA s.state.nodes sid = some sib → sib.parentId = none →
        addSibling sid label newId now s = (s, sid)) ∧
    (∀ (s : MindmapStore) (nid label : String) (now : Int),
      lookupA s.state.nodes nid = none → updateLabel nid label now s = s) ∧
    (∀ (s : MindmapStore) (nid : String),
      lookupA s.state.nodes nid = none → deleteNode nid s = s) ∧
    (∀ (s : MindmapStore) (nid : String),
      lookupA s.state.deletedNodes nid = none → restoreNode nid s = s) ∧
    (∀ (s : MindmapStore) (nid : String),
      lookupA s.state.nodes nid = none → toggleCollapse nid s = s) ∧
    (∀ (s : MindmapStore) (nid : String) (t : NodeType),
      lookupA s.state.nodes nid = none → setNodeType nid t s = s) ∧
    (∀ (s : MindmapStore) (nid : String) (p : NodePosition) (now : Int),
      lookupA s.state.nodes nid = none → setNodePosition nid p now s = s) := by
  refine ⟨?_, ?_, ?_, ?_, ?_, ?_, ?_, ?_, ?_⟩
  · intro s parentId label newId now h
    simp [addChild, applyPatchWithHistory, h]
  · intro s sid label newId now h
    simp [addSibling, h]
  · intro s sid label newId now sib h1 h2
    simp [addSibling, h1, h2]
  · intro s nid label now h
    simp [updateLabel, applyPatchWithHistory, h]
  · intro s nid h
    simp [deleteNode, h]
  · intro s nid h
    simp [restoreNode, applyPatchWithHistory, h]
  · intro s nid h
    simp [toggleCollapse, applyPatchWithHistory, h]
  · intro s nid t h
    simp [setNodeType, applyPatchWithHistory, h]
  · intro s nid p now h
    simp [setNodePosition, applyPatchWithHistory, h]

/-- C8 witness: a missing target and a root sibling both leave the store
unchanged. -/
theorem store_ops_noop_on_failure_witness :
    lookupA driftStore.state.nodes "zz" = none ∧
      deleteNode "zz" driftStore = driftStore ∧
      addSibling "a" "x" "n1" 0 driftStore = (driftStore, "a") := by
  refine ⟨rfl, ?_, ?_⟩
  · exact store_ops_noop_on_failure.2.2.2.2.1 driftStore "zz" rfl
  · exact store_ops_noop_on_failure.2.2.1 driftStore "a" "x" "n1" 0
      (mkNode "a" none []) rfl rfl

/-- C9: `addChild` on a missing parent leaves the whole store (state and
history stacks) unchanged, yet still returns the freshly generated id, which
afterwards is present in neither `nodes` nor `deletedNodes` — a dangling id
rather than an error value. -/
theorem addChild_missing_parent_dangling (s : MindmapStore)
    (parentId label newId : String) (now : Int)
    (hp : lookupA s.state.nodes parentId = none)
    (hf1 : lookupA s.state.nodes newId = none)
    (hf2 : lookupA s.state.deletedNodes newId = none) :
    (addChild parentId label newId now s).1 = s ∧
      (addChild parentId label newId now s).2 = newId ∧
      lookupA (addChild parentId label newId now s).1.state.nodes newId = none ∧
      lookupA (addChild parentId label newId now s).1.state.deletedNodes
        newId = none ∧
      (addChild parentId label newId now s).1.past = s.past := by
  have h1 : (addChild parentId label newId now s).1 = s := by
    simp [addChild, applyPatchWithHistory, hp]
  refine ⟨h1, rfl, ?_, ?_, ?_⟩
  · rw [h1]
    exact hf1
  · rw [h1]
    exact hf2
  · rw [h1]

/-- C9 witness. -/
theorem addChild_missing_parent_dangling_witness :
    lookupA driftStore.state.nodes "zz" = none ∧
      (addChild "zz" "x" "fresh" 0 driftStore).1 = driftStore ∧
      (addChild "zz" "x" "fresh" 0 driftStore).2 = "fresh" ∧
      lookupA (addChild "zz" "x" "fresh" 0 driftStore).1.state.nodes
        "fresh" = none := by
  have hmain := addChild_missing_parent_dangling driftStore "zz" "x" "fresh" 0
    rfl rfl rfl
  exact ⟨rfl, hmain.1, hmain.2.1, hmain.2.2.1⟩

/-- C10: the dual-source subtree collection terminates on every node table,
including cyclic ones — the worklist loop completes within its standard fuel,
which formalises the visited-set termination argument — and each collected id
is returned exactly once and refers to an entry of the table. -/
theorem collectSubtree_terminates_unique (nodes : NodeMap) (start : String) :
    (collectGo nodes (collectFuel nodes) [start] []).isSome ∧
      (collectSubtree start nodes).Nodup ∧
      ∀ x ∈ collectSubtree start nodes, (lookupA nodes x).isSome := by
  obtain ⟨v, hv, _⟩ := collectSubtree_go_eq start nodes
  exact ⟨by rw [hv]; rfl, collectSubtree_nodup start nodes,
    collectSubtree_keys start nodes⟩

/-- C10 witness: the traversal terminates on a cyclic table and collects
without duplicates. -/
theorem collectSubtree_terminates_unique_witness :
    (collectGo cyclicNodes (collectFuel cyclicNodes) ["a"] []).isSome ∧
      (collectSubtree "a" cyclicNodes).Nodup ∧
      (lookupA cyclicNodes "b").isSome := by
  have hmain := collectSubtree_terminates_unique cyclicNodes "a"
  exact ⟨hmain.1, hmain.2.1, hmain.2.2 "b" (by decide)⟩

/-- The semantic shortcut actions (`MindmapShortcutAction` in
`src/hooks/shortcutPolicy.ts`); the TS `null` member is `Option.none`. -/
inductive MindmapShortcutAction
  | addChild
  | addSibling
  | deleteNode
  | toggleCollapse
  | deselect
  | startEdit
deriving DecidableEq, Repr

/-- `ShortcutPolicyInput` from `src/hooks/shortcutPolicy.ts`. -/
structure ShortcutPolicyInput where
  key : String
  hasSelection : Bool
  isEditing : Bool
  hasModifier : Bool
  isEditableTarget : Bool
deriving DecidableEq, Repr

/-- `getMindmapShortcutAction`: guard clause, then the key switch (a JS
`switch` over string literals is a sequential equality chain). -/
def getMindmapShortcutAction (input : ShortcutPolicyInput) :
    Option MindmapShortcutAction :=
  if input.isEditing || input.hasModifier || input.isEditableTarget ||
      !input.hasSelection then none
  else if input.key = "Tab" then some MindmapShortcutAction.addChild
  else if input.key = "Enter" then some MindmapShortcutAction.addSibling
  else if input.key = "Delete" then some MindmapShortcutAction.deleteNode
  else if input.key = "Backspace" then some MindmapShortcutAction.deleteNode
  else if input.key = " " then some MindmapShortcutAction.toggleCollapse
  else if input.key = "Escape" then some MindmapShortcutAction.deselect
  else if input.key = "F2" then some MindmapShortcutAction.startEdit
  else none

/-- C6: the shortcut policy is a pure total function (a Lean function of its
input record, so identical inputs give identical outputs by definition): it
returns null whenever editing, a modifier, an editable target, or a missing
selection is flagged, and otherwise implements exactly the spec's key table,
with null for every other key. -/
theorem getMindmapShortcutAction_table (input : ShortcutPolicyInput) :
    ((input.isEditing = true ∨ input.hasModifier = true ∨
        input.isEditableTarget = true ∨ input.hasSelection = false) →
      getMindmapShortcutAction input = none) ∧
    (input.isEditing = false → input.hasModifier = false →
      input.isEditableTarget = false → input.hasSelection = true →
      getMindmapShortcutAction input =
        if input.key = "Tab" then some MindmapShortcutAction.addChild
        else if input.key = "Enter" then some MindmapShortcutAction.addSibling
        else if input.key = "Delete" ∨ input.key = "Backspace" then
          some MindmapShortcutAction.deleteNode
        else if input.key = " " then some MindmapShortcutAction.toggleCollapse
        else if input.key = "Escape" then some MindmapShortcutAction.deselect
        else if input.key = "F2" then some MindmapShortcutAction.startEdit
        else none) := by
  constructor
  · intro hg
    unfold getMindmapShortcutAction
    rcases hg with hg | hg | hg | hg <;> simp [hg]
  · intro h1 h2 h3 h4
    unfold getMindmapShortcutAction
    simp only [h1, h2, h3, h4]
    by_cases k1 : input.key = "Tab"
    · simp [k1]
    by_cases k2 : input.key = "Enter"
    · simp [k1, k2]
    by_cases k3 : input.key = "Delete"
    · simp [k1, k2, k3]
    by_cases k4 : input.key = "Backspace"
    · simp [k1, k2, k3, k4]
    by_cases k5 : input.key = " "
    · simp [k1, k2, k3, k4, k5]
    by_cases k6 : input.key = "Escape"
    · simp [k1, k2, k3, k4, k5, k6]
    by_cases k7 : input.key = "F2"
    · simp [k1, k2, k3, k4, k5, k6, k7]
    · simp [k1, k2, k3, k4, k5, k6, k7]

/-- C6 witness: Tab with a clean context adds a child; the same key while
editing resolves to null. -/
theorem getMindmapShortcutAction_table_witness :
    getMindmapShortcutAction
        { key := "Tab", hasSelection := true, isEditing := false,
          hasModifier := false, isEditableTarget := false } =
      some MindmapShortcutAction.addChild ∧
    getMindmapShortcutAction
        { key := "Tab", hasSelection := true, isEditing := true,
          hasModifier := false, isEditableTarget := false } = none := by
  constructor
  · have := (getMindmapShortcutAction_table
      { key := "Tab", hasSelection := true, isEditing := false,
        hasModifier := false, isEditableTarget := false }).2 rfl rfl rfl rfl
    simpa using this
  · exact (getMindmapShortcutAction_table
      { key := "Tab", hasSelection := true, isEditing := true,
        hasModifier := false, isEditableTarget := false }).1 (Or.inl rfl)

/-- The raw, unvalidated shape of the `customData` payload an element may
carry (`unknown` in TS): the node id may be missing and the role arbitrary;
`isManagedElement` validates both. -/
structure SyncCustomData where
  mindmapNodeId : Option String
  role : String
deriving DecidableEq, Repr

/-- `SyncElement` from `src/components/canvasSync.ts`. -/
structure SyncElement where
  id : String
  type : String
  containerId : Option String
  customData : Option SyncCustomData
deriving DecidableEq, Repr

/-- `isManagedElement` (the input may be `undefined`, hence `Option`). -/
def isManagedElement : Option SyncElement → Bool
  | none => false
  | some el =>
    match el.customData with
    | none => false
    | some cd =>
      cd.mindmapNodeId.isSome &&
        (decide (cd.role = "shape") || decide (cd.role = "label") ||
          decide (cd.role = "connector"))

/-- The `mindmapNodeId` read off a managed element's tag. -/
def managedNodeId (el : SyncElement) : Option String :=
  match el.customData with
  | some cd => cd.mindmapNodeId
  | none => none

/-- The container substitution step of the selection loop: a text element
with a truthy `containerId` is replaced by its container when the container
exists (`byId.get(el.containerId) || el`). -/
def substituteContainer (byId : EntryMap SyncElement) (el : SyncElement) :
    SyncElement :=
  if el.type = "text" then
    match el.containerId with
    | some cid =>
      if cid = "" then el
      else
        match lookupA byId cid with
        | some cont => cont
        | none => el
    | none => el
  else el

/-- The body of `resolveSelectedManagedNodeId`'s loop for one selected id. -/
def resolveOne (byId : EntryMap SyncElement) (sid : String) : Option String :=
  match lookupA byId sid with
  | none => none
  | some el0 =>
    let el := substituteContainer byId el0
    if isManagedElement (some el) then managedNodeId el else none

/-- `resolveSelectedManagedNodeId`: scan the selection in order, returning
the first resolved owner node id. -/
def resolveSelectedManagedNodeId (selectedIds : List String)
    (byId : EntryMap SyncElement) : Option String :=
  match selectedIds with
  | [] => none
  | sid :: rest =>
    match resolveOne byId sid with
    | some n => some n
    | none => resolveSelectedManagedNodeId rest byId

/-- C7: a selected text element bound to a tagged container resolves, via
container substitution, to the container's owner node id; an element whose
(substituted) element carries no valid tag resolves to nothing, so a
selection made only of such elements resolves to null; and the first
resolving element in selection order wins. -/
theorem resolveSelectedManagedNodeId_spec :
    (∀ (byId : EntryMap SyncElement) (sid cid : String) (el cont : SyncElement),
      lookupA byId sid = some el → el.type = "text" →
      el.containerId = some cid → cid ≠ "" → lookupA byId cid = some cont →
      isManagedElement (some cont) = true →
      resolveOne byId sid = managedNodeId cont) ∧
    (∀ (byId : EntryMap SyncElement) (sid : String) (el : SyncElement),
      lookupA byId sid = some el →
      isManagedElement (some (substituteContainer byId el)) = false →
      resolveOne byId sid = none) ∧
    (∀ (byId : EntryMap SyncElement) (ids : List String),
      (∀ sid ∈ ids, resolveOne byId sid = none) →
      resolveSelectedManagedNodeId ids byId = none) ∧
    (∀ (byId : EntryMap SyncElement) (ids1 ids2 : List String)
        (sid n : String),
      (∀ t ∈ ids1, resolveOne byId t = none) → resolveOne byId sid = some n →
      resolveSelectedManagedNodeId (ids1 ++ sid :: ids2) byId = some n) := by
  refine ⟨?_, ?_, ?_, ?_⟩
  · intro byId sid cid el cont h1 h2 h3 h4 h5 h6
    simp [resolveOne, h1, substituteContainer, h2, h3, h4, h5, h6]
  · intro byId sid el h1 h2
    simp [resolveOne, h1, h2]
  · intro byId ids
    induction ids with
    | nil =>
      intro _
      rfl
    | cons sid rest ih =>
      intro hall
      have hhd : resolveOne byId sid = none :=
        hall sid (List.mem_cons.mpr (Or.inl rfl))
      rw [resolveSelectedManagedNodeId, hhd]
      exact ih (fun t ht => hall t (List.mem_cons.mpr (Or.inr ht)))
  · intro byId ids1 ids2 sid n hnone hsid
    induction ids1 with
    | nil =>
      rw [List.nil_append, resolveSelectedManagedNodeId, hsid]
    | cons t ts ih =>
      have hhd : resolveOne byId t = none :=
        hnone t (List.mem_cons.mpr (Or.inl rfl))
      rw [List.cons_append, resolveSelectedManagedNodeId, hhd]
      exact ih (fun u hu => hnone u (List.mem_cons.mpr (Or.inr hu)))

/-- Concrete canvas fixture: a tagged shape, a text label bound to it, and
an untagged host element. -/
def wById : EntryMap SyncElement :=
  [("s1", { id := "s1", type := "rectangle", containerId := none,
            customData := some { mindmapNodeId := some "n1", role := "shape" } }),
   ("t1", { id := "t1", type := "text", containerId := some "s1",
            customData := none }),
   ("u1", { id := "u1", type := "rectangle", containerId := none,
            customData := none })]

/-- C7 witness: the bound text resolves to the shape's owner `n1` after the
untagged element is skipped; an untagged-only selection resolves to null. -/
theorem resolveSelectedManagedNodeId_spec_witness :
    resolveSelectedManagedNodeId ["u1", "t1"] wById = some "n1" ∧
      resolveSelectedManagedNodeId ["u1"] wById = none := by
  constructor
  · exact resolveSelectedManagedNodeId_spec.2.2.2 wById ["u1"] [] "t1" "n1"
      (by decide) (by decide)
  · exact resolveSelectedManagedNodeId_spec.2.2.1 wById ["u1"] (by decide)

/-! Layout engine (`src/engine/layout.ts`).  JS numbers are rationals here;
the recursive `layoutNode` has no termination guard in the source (a cyclic
`childrenIds` graph diverges), so the embedding carries an explicit fuel and
returns `none` where the source would not terminate. -/

def HORIZONTAL_GAP : Rat := 280
def VERTICAL_GAP : Rat := 80
def NODE_HEIGHT : Rat := 44

/-- The mutable context of `computeLayout`'s walk: the `positions` map under
construction and the running global vertical cursor `yOffset`. -/
structure LayoutAcc where
  positions : EntryMap NodePosition
  yOffset : Rat
deriving DecidableEq, Repr

mutual
/-- `layoutNode(nodeId, depth)`: place a leaf at the cursor and advance it,
or lay out the visible children first and centre the node between the
pre-children cursor and the last child's recorded y. -/
def layoutNode (nodes : NodeMap) : Nat → String → Nat → LayoutAcc →
    Option LayoutAcc
  | 0, _, _, _ => none
  | fuel + 1, nodeId, depth, acc =>
    match lookupA nodes nodeId with
    | none => some acc
    | some node =>
      match (if node.collapsed then []
          else node.childrenIds.filter (fun cid => (lookupA nodes cid).isSome)) with
      | [] =>
        some { positions := setKey acc.positions nodeId { x := (depth : Rat) * HORIZONTAL_GAP, y := acc.yOffset },
               yOffset := acc.yOffset + NODE_HEIGHT + VERTICAL_GAP }
      | c0 :: cs =>
        match layoutChildren nodes fuel (c0 :: cs) (depth + 1) acc with
        | none => none
        | some acc2 =>
          match lookupA acc2.positions
              (List.getLast (c0 :: cs) (List.cons_ne_nil c0 cs)) with
          | none => none
          | some lastPos =>
            some { positions := setKey acc2.positions nodeId { x := (depth : Rat) * HORIZONTAL_GAP, y := (acc.yOffset + lastPos.y) / 2 },
                   yOffset := acc2.yOffset }

/-- The sequential `for` loop over a list of nodes (children of one branch,
or the ordered roots at depth 0). -/
def layoutChildren (nodes : NodeMap) : Nat → List String → Nat → LayoutAcc →
    Option LayoutAcc
  | 0, _, _, _ => none
  | _ + 1, [], _, acc => some acc
  | fuel + 1, c :: cs, depth, acc =>
    match layoutNode nodes fuel c depth acc with
    | none => none
    | some acc2 => layoutChildren nodes fuel cs depth acc2
end

/-- `normalizeRootIds` for the array input shape: keep the non-empty ids. -/
def normalizeRootIds (rootIds : List String) : List String :=
  rootIds.filter (fun id => decide (id ≠ ""))

/-- First root pass: listed ids that exist with `parentId === null`, deduped
by the `seenRoots` set. -/
def orderedRootsListed (nodes : NodeMap) : List String → List String →
    List String
  | [], _ => []
  | rid :: rest, seen =>
    if decide (rid ∉ seen) && (match lookupA nodes rid with
        | some n => decide (n.parentId = none)
        | none => false)
    then rid :: orderedRootsListed nodes rest (rid :: seen)
    else orderedRootsListed nodes rest seen

/-- Second root pass over `Object.entries(nodes)`: append every parentless
node not yet seen (the implicit-extra-root drift recovery). -/
def orderedRootsExtra : NodeMap → List String → List String
  | [], _ => []
  | (nodeId, node) :: rest, seen =>
    if node.parentId = none ∧ nodeId ∉ seen
    then nodeId :: orderedRootsExtra rest (nodeId :: seen)
    else orderedRootsExtra rest seen

/-- The `orderedRootIds` list actually walked at depth 0. -/
def orderedRootIds (rootIds : List String) (nodes : NodeMap) : List String :=
  orderedRootsListed nodes rootIds [] ++
    orderedRootsExtra nodes (orderedRootsListed nodes rootIds [])

/-- The final pass: manual `position` overrides replace computed positions
for nodes that received one. -/
def applyOverrides : NodeMap → EntryMap NodePosition → EntryMap NodePosition
  | [], positions => positions
  | (nodeId, node) :: rest, positions =>
    match node.position, lookupA positions nodeId with
    | some p, some _ => applyOverrides rest (setKey positions nodeId p)
    | _, _ => applyOverrides rest positions

/-- `computeLayout(rootIds, nodes)`. -/
def computeLayout (fuel : Nat) (rootIdsInput : List String) (nodes : NodeMap) :
    Option (EntryMap NodePosition) :=
  if normalizeRootIds rootIdsInput = [] then some []
  else if orderedRootIds (normalizeRootIds rootIdsInput) nodes = [] then some []
  else
    match layoutChildren nodes fuel
        (orderedRootIds (normalizeRootIds rootIdsInput) nodes) 0
        { positions := [], yOffset := 0 } with
    | none => none
    | some acc => some (applyOverrides nodes acc.positions)

/-- `k` appears in some entry's `childrenIds`. -/
def isChildOf (nodes : NodeMap) (k : String) : Prop :=
  ∃ e ∈ nodes, k ∈ e.2.childrenIds

instance (nodes : NodeMap) (k : String) : Decidable (isChildOf nodes k) :=
  inferInstanceAs (Decidable (∃ e ∈ nodes, k ∈ e.2.childrenIds))

/-- Invariants of one `layoutNode` call: the cursor never moves back; the
position map only grows; every recorded position either predates the call or
falls inside the call's cursor window; only the node itself or ids listed in
somebody's `childrenIds` are (re)assigned; and when the node exists the
cursor advances by at least one slot and the node's own position lands
inside the window. -/
def LayoutNodeSpec (nodes : NodeMap) (fuel : Nat) : Prop :=
  ∀ nodeId depth acc acc', layoutNode nodes fuel nodeId depth acc = some acc' →
    (acc.yOffset ≤ acc'.yOffset ∧
      ∀ k, (lookupA acc.positions k).isSome → (lookupA acc'.positions k).isSome) ∧
    (∀ k p, lookupA acc'.positions k = some p →
      lookupA acc.positions k = some p ∨
        acc.yOffset ≤ p.y ∧ p.y < acc'.yOffset) ∧
    (∀ k, lookupA acc'.positions k ≠ lookupA acc.positions k →
      k = nodeId ∨ isChildOf nodes k) ∧
    ((lookupA nodes nodeId).isSome →
      acc.yOffset + (NODE_HEIGHT + VERTICAL_GAP) ≤ acc'.yOffset ∧
      ∃ p, lookupA acc'.positions nodeId = some p ∧
        acc.yOffset ≤ p.y ∧ p.y < acc'.yOffset)

/-- The same invariants for the sequential loop, plus: every listed id that
exists in the table ends the loop with a recorded position inside the loop's
cursor window. -/
def LayoutChildrenSpec (nodes : NodeMap) (fuel : Nat) : Prop :=
  ∀ l depth acc acc', layoutChildren nodes fuel l depth acc = some acc' →
    (acc.yOffset ≤ acc'.yOffset ∧
      ∀ k, (lookupA acc.positions k).isSome → (lookupA acc'.positions k).isSome) ∧
    (∀ k p, lookupA acc'.positions k = some p →
      lookupA acc.positions k = some p ∨
        acc.yOffset ≤ p.y ∧ p.y < acc'.yOffset) ∧
    (∀ k, lookupA acc'.positions k ≠ lookupA acc.positions k →
      k ∈ l ∨ isChildOf nodes k) ∧
    (∀ c ∈ l, (lookupA nodes c).isSome →
      acc.yOffset + (NODE_HEIGHT + VERTICAL_GAP) ≤ acc'.yOffset ∧
      ∃ p, lookupA acc'.positions c = some p ∧
        acc.yOffset ≤ p.y ∧ p.y < acc'.yOffset)

/-- The leaf arm of `layoutNode` satisfies the node invariants. -/
theorem layout_leaf_case (nodes : NodeMap) (nodeId : String) (x : Rat)
    (acc acc' : LayoutAcc)
    (h : acc' = { positions := setKey acc.positions nodeId
                    { x := x, y := acc.yOffset },
                  yOffset := acc.yOffset + NODE_HEIGHT + VERTICAL_GAP }) :
    (acc.yOffset ≤ acc'.yOffset ∧
      ∀ k, (lookupA acc.positions k).isSome → (lookupA acc'.positions k).isSome) ∧
    (∀ k p, lookupA acc'.positions k = some p →
      lookupA acc.positions k = some p ∨
        acc.yOffset ≤ p.y ∧ p.y < acc'.yOffset) ∧
    (∀ k, lookupA acc'.positions k ≠ lookupA acc.positions k →
      k = nodeId ∨ isChildOf nodes k) ∧
    ((lookupA nodes nodeId).isSome →
      acc.yOffset + (NODE_HEIGHT + VERTICAL_GAP) ≤ acc'.yOffset ∧
      ∃ p, lookupA acc'.positions nodeId = some p ∧
        acc.yOffset ≤ p.y ∧ p.y < acc'.yOffset) := by
  subst h
  have hgap : (0 : Rat) < NODE_HEIGHT + VERTICAL_GAP := by
    unfold NODE_HEIGHT VERTICAL_GAP
    norm_num
  constructor
  · constructor
    · simp only []
      linarith
    · intro k hk
      exact lookupA_setKey_isSome _ _ _ _ hk
  refine ⟨?_, ?_, ?_⟩
  · intro k p hp
    by_cases he : k = nodeId
    · subst he
      simp only [] at hp
      rw [lookupA_setKey_self] at hp
      injection hp with hp
      subst hp
      right
      constructor
      · simp only []
        linarith
      · simp only []
        linarith
    · simp only [] at hp
      rw [lookupA_setKey_ne _ _ _ _ he] at hp
      exact Or.inl hp
  · intro k hk
    by_cases he : k = nodeId
    · exact Or.inl he
    · simp only [lookupA_setKey_ne _ _ _ _ he] at hk
      exact absurd rfl hk
  · intro _
    constructor
    · simp only []
      linarith
    · refine ⟨_, lookupA_setKey_self _ _ _, ?_, ?_⟩
      · simp only []
        linarith
      · simp only []
        linarith

theorem layout_spec (nodes : NodeMap) :
    ∀ fuel, LayoutNodeSpec nodes fuel ∧ LayoutChildrenSpec nodes fuel := by
  intro fuel
  induction fuel with
  | zero =>
    constructor
    · intro nodeId depth acc acc' h
      simp [layoutNode] at h
    · intro l depth acc acc' h
      simp [layoutChildren] at h
  | succ fuel ih =>
    obtain ⟨ihN, ihC⟩ := ih
    constructor
    · intro nodeId depth acc acc' h
      rw [layoutNode] at h
      split at h
      · rename_i hl
        injection h with h
        subst h
        refine ⟨⟨le_refl _, fun k hk => hk⟩, fun k p hp => Or.inl hp,
          fun k hk => absurd rfl hk, fun hk => ?_⟩
        rw [hl] at hk
        simp at hk
      · rename_i node hl
        split at h
        · rename_i hvc
          injection h with h
          exact layout_leaf_case nodes nodeId _ acc acc' h.symm
        · rename_i c0 cs hvc
          split at h
          · exact Option.noConfusion h
          · rename_i acc2 hch
            split at h
            · exact Option.noConfusion h
            · rename_i lastPos hlast
              injection h with h
              subst h
              obtain ⟨⟨ca, cm⟩, cb, cc, ce⟩ := ihC (c0 :: cs) (depth + 1) acc acc2 hch
              have hvcf : node.collapsed = false := by
                by_contra hcol
                rw [Bool.not_eq_false] at hcol
                rw [hcol] at hvc
                simp at hvc
              have hfilter : node.childrenIds.filter
                  (fun cid => (lookupA nodes cid).isSome) = c0 :: cs := by
                rw [hvcf] at hvc
                simpa using hvc
              have hlastmem : List.getLast (c0 :: cs) (List.cons_ne_nil c0 cs) ∈
                c0 :: cs := List.getLast_mem _
              have hlastkey : (lookupA nodes
                  (List.getLast (c0 :: cs) (List.cons_ne_nil c0 cs))).isSome := by
                have : List.getLast (c0 :: cs) (List.cons_ne_nil c0 cs) ∈
                    node.childrenIds.filter (fun cid => (lookupA nodes cid).isSome) := by
                  rw [hfilter]
                  exact hlastmem
                have := List.mem_filter.mp this
                simpa using this.2
              obtain ⟨hbump, pl, hpl, hpl1, hpl2⟩ := ce _ hlastmem hlastkey
              have hpleq : pl = lastPos := by
                rw [hpl] at hlast
                injection hlast
              subst hpleq
              have hmid1 : acc.yOffset ≤ (acc.yOffset + pl.y) / 2 := by
                linarith
              have hmid2 : (acc.yOffset + pl.y) / 2 < acc2.yOffset := by
                have hgap : (0 : Rat) < NODE_HEIGHT + VERTICAL_GAP := by
                  unfold NODE_HEIGHT VERTICAL_GAP
                  norm_num
                have hy0lt : acc.yOffset < acc2.yOffset := by linarith
                linarith
              have hchildof : ∀ k, k ∈ c0 :: cs → isChildOf nodes k := by
                intro k hk
                refine ⟨(nodeId, node), mem_of_lookupA_eq_some _ _ _ hl, ?_⟩
                have : k ∈ node.childrenIds.filter
                    (fun cid => (lookupA nodes cid).isSome) := by
                  rw [hfilter]
                  exact hk
                exact (List.mem_filter.mp this).1
              constructor
              · constructor
                · simpa using ca
                · intro k hk
                  exact lookupA_setKey_isSome _ _ _ _ (cm k hk)
              refine ⟨?_, ?_, ?_⟩
              · intro k p hp
                simp only [] at hp
                by_cases he : k = nodeId
                · subst he
                  rw [lookupA_setKey_self] at hp
                  injection hp with hp
                  subst hp
                  exact Or.inr ⟨hmid1, hmid2⟩
                · rw [lookupA_setKey_ne _ _ _ _ he] at hp
                  rcases cb k p hp with h1 | h1
                  · exact Or.inl h1
                  · exact Or.inr h1
              · intro k hk
                by_cases he : k = nodeId
                · exact Or.inl he
                · simp only [lookupA_setKey_ne _ _ _ _ he] at hk
                  rcases cc k hk with h1 | h1
                  · exact Or.inr (hchildof k h1)
                  · exact Or.inr h1
              · intro _
                refine ⟨by simpa using hbump, _, lookupA_setKey_self _ _ _,
                  hmid1, hmid2⟩
    · intro l depth acc acc' h
      cases l with
      | nil =>
        rw [layoutChildren] at h
        injection h with h
        subst h
        exact ⟨⟨le_refl _, fun k hk => hk⟩, fun k p hp => Or.inl hp,
          fun k hk => absurd rfl hk, fun c hc => absurd hc (List.not_mem_nil c)⟩
      | cons c cs =>
        rw [layoutChildren] at h
        split at h
        · exact Option.noConfusion h
        · rename_i acc1 hn
          obtain ⟨⟨na, nm⟩, nb, nc, nkey⟩ := ihN c depth acc acc1 hn
          obtain ⟨⟨ca, cm⟩, cb, cc, ce⟩ := ihC cs depth acc1 acc' h
          refine ⟨⟨le_trans na ca, fun k hk => cm k (nm k hk)⟩, ?_, ?_, ?_⟩
          · intro k p hp
            rcases cb k p hp with h1 | h1
            · rcases nb k p h1 with h2 | h2
              · exact Or.inl h2
              · exact Or.inr ⟨h2.1, lt_of_lt_of_le h2.2 ca⟩
            · exact Or.inr ⟨le_trans na h1.1, h1.2⟩
          · intro k hk
            by_cases he : lookupA acc'.positions k = lookupA acc1.positions k
            · rw [he] at hk
              rcases nc k hk with h1 | h1
              · exact Or.inl (List.mem_cons.mpr (Or.inl h1))
              · exact Or.inr h1
            · rcases cc k he with h1 | h1
              · exact Or.inl (List.mem_cons.mpr (Or.inr h1))
              · exact Or.inr h1
          · intro d hd hkey
            rcases List.mem_cons.mp hd with h1 | h1
            · subst h1
              obtain ⟨hbump, p, hp, hp1, hp2⟩ := nkey hkey
              refine ⟨le_trans hbump ca, ?_⟩
              rcases Option.isSome_iff_exists.mp (cm d (by simp [hp])) with ⟨p', hp'⟩
              refine ⟨p', hp', ?_, ?_⟩
              · rcases cb d p' hp' with h2 | h2
                · rw [hp] at h2
                  injection h2 with h2
                  subst h2
                  exact hp1
                · exact le_trans na h2.1
              · rcases cb d p' hp' with h2 | h2
                · rw [hp] at h2
                  injection h2 with h2
                  subst h2
                  exact lt_of_lt_of_le hp2 ca
                · exact h2.2
            · obtain ⟨hbump, p, hp, hp1, hp2⟩ := ce d h1 hkey
              exact ⟨le_trans (by linarith) hbump, p, hp, le_trans na hp1, hp2⟩

/-- `r1` occurs strictly before `r2` in `l`. -/
def SplitBefore (l : List String) (r1 r2 : String) : Prop :=
  ∃ l1 l2, l = l1 ++ r1 :: l2 ∧ r2 ∈ l2

theorem mem_ordered_split (l : List String) (r1 r2 : String)
    (h1 : r1 ∈ l) (h2 : r2 ∈ l) (hne : r1 ≠ r2) :
    SplitBefore l r1 r2 ∨ SplitBefore l r2 r1 := by
  induction l with
  | nil => simp at h1
  | cons x xs ih =>
    by_cases hx1 : r1 = x
    · subst hx1
      have h2xs : r2 ∈ xs := by
        rcases List.mem_cons.mp h2 with h | h
        · exact absurd h.symm hne
        · exact h
      exact Or.inl ⟨[], xs, rfl, h2xs⟩
    · by_cases hx2 : r2 = x
      · subst hx2
        have h1xs : r1 ∈ xs := by
          rcases List.mem_cons.mp h1 with h | h
          · exact absurd h hx1
          · exact h
        exact Or.inr ⟨[], xs, rfl, h1xs⟩
      · have h1xs : r1 ∈ xs := by
          rcases List.mem_cons.mp h1 with h | h
          · exact absurd h hx1
          · exact h
        have h2xs : r2 ∈ xs := by
          rcases List.mem_cons.mp h2 with h | h
          · exact absurd h hx2
          · exact h
        rcases ih h1xs h2xs with ⟨l1, l2, heq, hm⟩ | ⟨l1, l2, heq, hm⟩
        · exact Or.inl ⟨x :: l1, l2, by rw [heq, List.cons_append], hm⟩
        · exact Or.inr ⟨x :: l1, l2, by rw [heq, List.cons_append], hm⟩

/-- A root laid out before another root, never re-laid (its id appears in
no `childrenIds`), keeps a strictly smaller y than any later root. -/
theorem roots_separated (nodes : NodeMap) :
    ∀ fuel l depth acc acc', layoutChildren nodes fuel l depth acc = some acc' →
      l.Nodup →
      ∀ r1 r2, SplitBefore l r1 r2 → ¬isChildOf nodes r1 →
        (lookupA nodes r1).isSome → (lookupA nodes r2).isSome →
        ∃ p1 p2, lookupA acc'.positions r1 = some p1 ∧
          lookupA acc'.positions r2 = some p2 ∧ p1.y < p2.y := by
  intro fuel
  induction fuel with
  | zero =>
    intro l depth acc acc' h
    simp [layoutChildren] at h
  | succ fuel ih =>
    intro l depth acc acc' h hnd r1 r2 hsplit hch1 hk1 hk2
    obtain ⟨l1, l2, heq, hm2⟩ := hsplit
    subst heq
    cases l1 with
    | nil =>
      simp only [List.nil_append] at h hnd
      rw [layoutChildren] at h
      split at h
      · exact Option.noConfusion h
      · rename_i acc1 hn
        obtain ⟨⟨na, nm⟩, nb, nc, nkey⟩ :=
          (layout_spec nodes fuel).1 r1 depth acc acc1 hn
        obtain ⟨⟨ca, cm⟩, cb, cc, ce⟩ :=
          (layout_spec nodes fuel).2 l2 depth acc1 acc' h
        obtain ⟨hbump, p1, hp1, hw1, hw2⟩ := nkey hk1
        have hr1final : lookupA acc'.positions r1 = some p1 := by
          by_cases hchg : lookupA acc'.positions r1 = lookupA acc1.positions r1
          · rw [hchg, hp1]
          · rcases cc r1 hchg with hmem | hcho
            · exact absurd hmem (List.nodup_cons.mp hnd).1
            · exact absurd hcho hch1
        obtain ⟨hbump2, p2, hp2, hw21, hw22⟩ := ce r2 hm2 hk2
        exact ⟨p1, p2, hr1final, hp2, by linarith⟩
    | cons t ts =>
      simp only [List.cons_append] at h hnd
      rw [layoutChildren] at h
      split at h
      · exact Option.noConfusion h
      · rename_i acc1 hn
        exact ih (ts ++ r1 :: l2) depth acc1 acc' h (List.nodup_cons.mp hnd).2
          r1 r2 ⟨ts, l2, rfl, hm2⟩ hch1 hk1 hk2

theorem orderedRootsListed_nodup (nodes : NodeMap) :
    ∀ rl seen, (orderedRootsListed nodes rl seen).Nodup ∧
      (∀ x ∈ orderedRootsListed nodes rl seen, x ∉ seen) ∧
      (∀ x ∈ orderedRootsListed nodes rl seen, (lookupA nodes x).isSome) := by
  intro rl
  induction rl with
  | nil =>
    intro seen
    refine ⟨List.nodup_nil, ?_, ?_⟩ <;> intro x hx <;> simp [orderedRootsListed] at hx
  | cons rid rest ih =>
    intro seen
    rw [orderedRootsListed]
    by_cases hc : (decide (rid ∉ seen) && (match lookupA nodes rid with
        | some n => decide (n.parentId = none)
        | none => false)) = true
    · rw [if_pos hc]
      obtain ⟨hc1, hc2⟩ := Bool.and_eq_true_iff.mp hc
      have hnotseen : rid ∉ seen := of_decide_eq_true hc1
      have hkey : (lookupA nodes rid).isSome := by
        cases hl : lookupA nodes rid with
        | none =>
          rw [hl] at hc2
          exact Bool.noConfusion hc2
        | some n => simp
      refine ⟨?_, ?_, ?_⟩
      · refine List.nodup_cons.mpr ⟨?_, (ih (rid :: seen)).1⟩
        intro hmem
        exact (ih (rid :: seen)).2.1 rid hmem (List.mem_cons.mpr (Or.inl rfl))
      · intro x hx
        rcases List.mem_cons.mp hx with h | h
        · exact h ▸ hnotseen
        · intro hxs
          exact (ih (rid :: seen)).2.1 x h (List.mem_cons.mpr (Or.inr hxs))
      · intro x hx
        rcases List.mem_cons.mp hx with h | h
        · exact h ▸ hkey
        · exact (ih (rid :: seen)).2.2 x h
    · rw [if_neg hc]
      exact ih seen

theorem orderedRootsExtra_nodup :
    ∀ (entries : NodeMap) (seen : List String),
      (orderedRootsExtra entries seen).Nodup ∧
      (∀ x ∈ orderedRootsExtra entries seen, x ∉ seen) ∧
      (∀ x ∈ orderedRootsExtra entries seen, ∃ v, (x, v) ∈ entries) := by
  intro entries
  induction entries with
  | nil =>
    intro seen
    refine ⟨List.nodup_nil, ?_, ?_⟩ <;> intro x hx <;> simp [orderedRootsExtra] at hx
  | cons e rest ih =>
    intro seen
    obtain ⟨nodeId, node⟩ := e
    rw [orderedRootsExtra]
    by_cases hc : node.parentId = none ∧ nodeId ∉ seen
    · rw [if_pos hc]
      refine ⟨?_, ?_, ?_⟩
      · refine List.nodup_cons.mpr ⟨?_, (ih (nodeId :: seen)).1⟩
        intro hmem
        exact (ih (nodeId :: seen)).2.1 nodeId hmem (List.mem_cons.mpr (Or.inl rfl))
      · intro x hx
        rcases List.mem_cons.mp hx with h | h
        · exact h ▸ hc.2
        · intro hxs
          exact (ih (nodeId :: seen)).2.1 x h (List.mem_cons.mpr (Or.inr hxs))
      · intro x hx
        rcases List.mem_cons.mp hx with h | h
        · exact ⟨node, by rw [h]; exact List.mem_cons.mpr (Or.inl rfl)⟩
        · obtain ⟨v, hv⟩ := (ih (nodeId :: seen)).2.2 x h
          exact ⟨v, List.mem_cons.mpr (Or.inr hv)⟩
    · rw [if_neg hc]
      obtain ⟨h1, h2, h3⟩ := ih seen
      refine ⟨h1, h2, ?_⟩
      intro x hx
      obtain ⟨v, hv⟩ := h3 x hx
      exact ⟨v, List.mem_cons.mpr (Or.inr hv)⟩

theorem orderedRootIds_nodup (rootIds : List String) (nodes : NodeMap) :
    (orderedRootIds rootIds nodes).Nodup := by
  unfold orderedRootIds
  refine List.Nodup.append (orderedRootsListed_nodup nodes rootIds []).1
    (orderedRootsExtra_nodup nodes _).1 ?_
  intro a ha hb
  exact (orderedRootsExtra_nodup nodes _).2.1 a hb ha

theorem orderedRootIds_keys (rootIds : List String) (nodes : NodeMap) :
    ∀ x ∈ orderedRootIds rootIds nodes, (lookupA nodes x).isSome := by
  intro x hx
  unfold orderedRootIds at hx
  rcases List.mem_append.mp hx with h | h
  · exact (orderedRootsListed_nodup nodes rootIds []).2.2 x h
  · obtain ⟨v, hv⟩ := (orderedRootsExtra_nodup nodes _).2.2 x h
    rw [lookupA_isSome_iff_mem_keys]
    exact List.mem_map_of_mem Prod.fst hv

theorem applyOverrides_preserve :
    ∀ (entries : NodeMap) (positions : EntryMap NodePosition) (k : String),
      (∀ e ∈ entries, e.1 = k → e.2.position = none) →
      lookupA (applyOverrides entries positions) k = lookupA positions k := by
  intro entries
  induction entries with
  | nil =>
    intro positions k _
    rfl
  | cons e rest ih =>
    intro positions k hnone
    obtain ⟨nodeId, node⟩ := e
    rw [applyOverrides]
    split
    · rename_i q p hq hsome
      have hke : k ≠ nodeId := by
        intro hk
        subst hk
        rw [hnone (k, node) (List.mem_cons.mpr (Or.inl rfl)) rfl] at hq
        exact Option.noConfusion hq
      rw [ih (setKey positions nodeId q) k
        (fun e he h1 => hnone e (List.mem_cons.mpr (Or.inr he)) h1)]
      exact lookupA_setKey_ne _ _ _ _ hke
    · exact ih positions k
        (fun e he h1 => hnone e (List.mem_cons.mpr (Or.inr he)) h1)

/-- C5, amended: two distinct laid-out roots get different y-coordinates
provided neither carries a manual `position` override (overrides are applied
verbatim and may collide) and neither root id occurs in any node's
`childrenIds` (a drifted child link would re-lay the root inside another
root's subtree). -/
theorem computeLayout_roots_distinct_y (fuel : Nat)
    (rootIdsInput : List String) (nodes : NodeMap)
    (m : EntryMap NodePosition) (r1 r2 : String)
    (hm : computeLayout fuel rootIdsInput nodes = some m)
    (hnn : normalizeRootIds rootIdsInput ≠ [])
    (hr1 : r1 ∈ orderedRootIds (normalizeRootIds rootIdsInput) nodes)
    (hr2 : r2 ∈ orderedRootIds (normalizeRootIds rootIdsInput) nodes)
    (hne : r1 ≠ r2)
    (hch1 : ¬isChildOf nodes r1) (hch2 : ¬isChildOf nodes r2)
    (hov1 : ∀ e ∈ nodes, e.1 = r1 → e.2.position = none)
    (hov2 : ∀ e ∈ nodes, e.1 = r2 → e.2.position = none) :
    ∃ p1 p2, lookupA m r1 = some p1 ∧ lookupA m r2 = some p2 ∧
      p1.y ≠ p2.y := by
  unfold computeLayout at hm
  rw [if_neg hnn, if_neg (List.ne_nil_of_mem hr1)] at hm
  split at hm
  · exact Option.noConfusion hm
  · rename_i acc heq
    injection hm with hm
    subst hm
    have hk1 := orderedRootIds_keys _ nodes r1 hr1
    have hk2 := orderedRootIds_keys _ nodes r2 hr2
    have hnd := orderedRootIds_nodup (normalizeRootIds rootIdsInput) nodes
    rcases mem_ordered_split _ r1 r2 hr1 hr2 hne with hsp | hsp
    · obtain ⟨p1, p2, hp1, hp2, hlt⟩ := roots_separated nodes fuel _ 0 _ acc
        heq hnd r1 r2 hsp hch1 hk1 hk2
      refine ⟨p1, p2, ?_, ?_, ne_of_lt hlt⟩
      · rw [applyOverrides_preserve nodes acc.positions r1 hov1]
        exact hp1
      · rw [applyOverrides_preserve nodes acc.positions r2 hov2]
        exact hp2
    · obtain ⟨p2, p1, hp2, hp1, hlt⟩ := roots_separated nodes fuel _ 0 _ acc
        heq hnd r2 r1 hsp hch2 hk2 hk1
      refine ⟨p1, p2, ?_, ?_, (ne_of_lt hlt).symm⟩
      · rw [applyOverrides_preserve nodes acc.positions r1 hov1]
        exact hp1
      · rw [applyOverrides_preserve nodes acc.positions r2 hov2]
        exact hp2

/-- Two plain independent roots with no overrides. -/
def plainRootsNodes : NodeMap :=
  [("a", mkNode "a" none []), ("b", mkNode "b" none [])]

/-- C5 amended-claim witness: two override-free roots get distinct y. -/
theorem computeLayout_roots_distinct_y_witness :
    (computeLayout 5 ["a", "b"] plainRootsNodes).isSome ∧
    ∃ m p1 p2, computeLayout 5 ["a", "b"] plainRootsNodes = some m ∧
      lookupA m "a" = some p1 ∧ lookupA m "b" = some p2 ∧ p1.y ≠ p2.y := by
  have hsome : (computeLayout 5 ["a", "b"] plainRootsNodes).isSome := by decide
  refine ⟨hsome, ?_⟩
  rcases Option.isSome_iff_exists.mp hsome with ⟨m, hm⟩
  obtain ⟨p1, p2, h1, h2, h3⟩ := computeLayout_roots_distinct_y 5 ["a", "b"]
    plainRootsNodes m "a" "b" hm (by decide) (by decide) (by decide)
    (by decide) (by decide) (by decide) (by decide) (by decide)
  exact ⟨m, p1, p2, hm, h1, h2, h3⟩

/-- Two independent roots, both carrying the same manual position override. -/
def overrideRootsNodes : NodeMap :=
  [("a", { mkNode "a" none [] with position := some { x := 0, y := 0 } }),
   ("b", { mkNode "b" none [] with position := some { x := 0, y := 0 } })]

/-- C5 counterexample: the claim "any two distinct root nodes are assigned
different y-coordinates" is false as stated — manual position overrides are
applied verbatim after the pass, so two roots overridden to the same point
share a y-coordinate in the returned map. -/
theorem computeLayout_roots_shared_y_counterexample :
    "a" ∈ orderedRootIds (normalizeRootIds ["a", "b"]) overrideRootsNodes ∧
      "b" ∈ orderedRootIds (normalizeRootIds ["a", "b"]) overrideRootsNodes ∧
      "a" ≠ "b" ∧
      computeLayout 5 ["a", "b"] overrideRootsNodes =
        some [("a", { x := 0, y := 0 }), ("b", { x := 0, y := 0 })] := by
  decide

end Dendridraw
